import Mathlib

/-!
Verification of the PhishNet API core (`apps/api/app/main.py` and
`apps/api/app/ai_engine.py`) against its natural-language specification.

The Python handlers are shallowly embedded over `List Char` (Python `str`),
`Int` (Python `int`) and explicit records for the persisted rows.  Regexes
from the source are embedded as executable scanners with Python `re`
semantics (leftmost, non-overlapping matches; greedy quantifiers; ASCII
case folding for `re.IGNORECASE`).  External effects (the classifier
backend, the renderer, the artifact filesystem) are passed in as explicit
values, exactly as the handlers observe them.
-/

namespace PhishNet

/-! ### Character classes and elementary string helpers -/

/-- Python `\s` on the ASCII range (the source only manipulates ASCII
whitespace; Python additionally treats some non-ASCII code points as
whitespace, which none of the embedded rules produce). -/
def isSpacePy (c : Char) : Bool :=
  c == ' ' || c == '\t' || c == '\n' || c == '\r' || c == '\x0b' || c == '\x0c'

/-- The character class `[^\s'\"]` of the URL regexes in `main.py`. -/
def isUrlChar (c : Char) : Bool :=
  !(isSpacePy c) && c != '\'' && c != '"'

/-- ASCII lowercasing of one character, as Python `str.lower` acts on the
ASCII range (`Char.toLower` in core Lean is exactly this map). -/
def lowerChar (c : Char) : Char := c.toLower

/-- Python `str.lower` (ASCII fragment). -/
def lowerStr (l : List Char) : List Char := l.map lowerChar

/-- Python `pat in s` (substring containment). -/
def hasSubstr (pat : List Char) : List Char → Bool
  | [] => pat.isEmpty
  | c :: cs => pat.isPrefixOf (c :: cs) || hasSubstr pat cs

/-- Python `s.strip(".")`: remove leading and trailing dots. -/
def stripDots (l : List Char) : List Char :=
  ((l.dropWhile (· == '.')).reverse.dropWhile (· == '.')).reverse

/-- Python `s.split(".")`: split on every dot; `""` splits to `[""]`. -/
def splitOnDot : List Char → List (List Char)
  | [] => [[]]
  | c :: cs =>
    match splitOnDot cs with
    | [] => [[]]
    | h :: t => if c = '.' then [] :: h :: t else (c :: h) :: t

/-- Python `netloc.rpartition('@')[2]` and `s.split('@')[-1]`: the part
after the last `'@'`, or the whole string when there is none. -/
def afterLastAt (l : List Char) : List Char :=
  (l.reverse.takeWhile (· != '@')).reverse

/-! ### The URL regex `https?://[^\s'\"]+` as an executable scanner

`re.findall` / `re.sub` semantics: scan left to right, take the leftmost
match, consume it (greedy `+`), continue after it (non-overlapping).
`re.IGNORECASE` folds ASCII case on the literal scheme characters. -/

def isH (c : Char) : Bool := c == 'h' || c == 'H'

def isT (c : Char) : Bool := c == 't' || c == 'T'

def isP (c : Char) : Bool := c == 'p' || c == 'P'

def isS (c : Char) : Bool := c == 's' || c == 'S'

/-- Match the scheme part `https?://` at the head of the text:
`some (consumed, remainder)` on success. -/
def schemeSplit : List Char → Option (List Char × List Char)
  | a :: b :: c :: d :: rest =>
    if isH a && isT b && isT c && isP d then
      match rest with
      | e :: rest2 =>
        if isS e then
          match rest2 with
          | ':' :: '/' :: '/' :: r => some ([a, b, c, d, e, ':', '/', '/'], r)
          | _ => none
        else
          match e :: rest2 with
          | ':' :: '/' :: '/' :: r => some ([a, b, c, d, ':', '/', '/'], r)
          | _ => none
      | [] => none
    else none
  | _ => none

/-- One attempt of the whole regex at the head of the text: the scheme
followed by a non-empty greedy run of `[^\s'\"]` characters.
`some (match, remainder)` on success. -/
def matchAt (l : List Char) : Option (List Char × List Char) :=
  match schemeSplit l with
  | some (sch, rest) =>
    if (rest.takeWhile isUrlChar).isEmpty then none
    else some (sch ++ rest.takeWhile isUrlChar, rest.dropWhile isUrlChar)
  | none => none

/-- The scan of `re.findall`, structured on a fuel bound: every match
consumes at least eight characters and the scan otherwise advances one
character, so fuel `t.length` always suffices (`findAllGo_congr`). -/
def findAllGo : Nat → List Char → List (List Char)
  | _, [] => []
  | 0, _ => []
  | fuel + 1, c :: cs =>
    match matchAt (c :: cs) with
    | some (m, r) => m :: findAllGo fuel r
    | none => findAllGo fuel cs

/-- `re.findall` for this regex: all non-overlapping matches, left to
right. -/
def findAll (t : List Char) : List (List Char) := findAllGo t.length t

/-- The scan of `re.sub`, on the same fuel bound as `findAllGo`. -/
def stripLinksGo : Nat → List Char → List Char
  | _, [] => []
  | 0, l => l
  | fuel + 1, c :: cs =>
    match matchAt (c :: cs) with
    | some (_, r) => "[LINK REMOVED]".data ++ stripLinksGo fuel r
    | none => c :: stripLinksGo fuel cs

/-- `re.sub` of this regex with the fixed replacement `[LINK REMOVED]`,
i.e. `_strip_links` from `main.py`. -/
def strip_links (t : List Char) : List Char := stripLinksGo t.length t

/-- Does the text contain a match of the URL regex at any position?  The
rewrite invariant of §4.5 is the absence of any such match. -/
def hasMatch : List Char → Bool
  | [] => false
  | c :: cs => (matchAt (c :: cs)).isSome || hasMatch cs

/-- Python `sorted(set(xs))` for lists of strings: deduplicate, then sort
lexicographically (Lean's `List` linear order is lexicographic by code
point, as Python's string order is). -/
def pySortedSet (l : List (List Char)) : List (List Char) :=
  (l.dedup).insertionSort (· ≤ ·)

/-- `extract_urls` from `main.py`:
`sorted(set(re.findall(r"https?://[^\s'\"]+", text)))`, with the empty
input short-circuit. -/
def extract_urls (t : List Char) : List (List Char) :=
  if t.isEmpty then [] else pySortedSet (findAll t)

/-! ### `urllib.parse.urlparse(u).hostname`

Model of the stdlib host extraction as the handlers use it: recognise a
`scheme:` head, require a `//`-netloc, drop userinfo and port, lowercase.
`urlparse` is not total: `urlsplit` raises `ValueError` for a netloc with
an unbalanced bracket (every version; e.g. `http://[x`, which the link
regex of `extract_urls` can store) and, on 3.11+, for a bracketed host
that is not an IP literal; a non-ASCII netloc can also raise in the NFKC
check.  `pyHostname` below is a total function that agrees with
`urlparse(u).hostname or ""` exactly on the inputs satisfying
`urlparse_total`; on the raising inputs it still returns a host, so every
theorem asserting that a handler which calls `urlparse` completes
normally carries `urlparse_total` over the scanned URLs as a
hypothesis. -/

/-- Characters allowed in a URL scheme (`[a-zA-Z0-9+.-]`). -/
def isSchemeChar (c : Char) : Bool :=
  c.isAlpha || c.isDigit || c == '+' || c == '-' || c == '.'

/-- Split at the first `':'`: `some (before, after)` when present. -/
def findColon : List Char → Option (List Char × List Char)
  | [] => none
  | c :: cs =>
    if c = ':' then some ([], cs)
    else
      match findColon cs with
      | some (b, a) => some (c :: b, a)
      | none => none

/-- Drop a valid `scheme:` head if one is present (first char alphabetic,
all chars scheme characters), as `urlsplit` does. -/
def schemeStrip (u : List Char) : List Char :=
  match findColon u with
  | some (before, after) =>
    if !before.isEmpty && (before.headD ' ').isAlpha && before.all isSchemeChar
    then after else u
  | none => u

/-- `urlparse(u).hostname or ""` — `[]` models both `None` and `""`. -/
def pyHostname (u : List Char) : List Char :=
  match schemeStrip u with
  | '/' :: '/' :: r =>
    let netloc := r.takeWhile (fun c => c != '/' && c != '?' && c != '#')
    let hostinfo := afterLastAt netloc
    let host :=
      if hostinfo.contains '[' then
        ((hostinfo.dropWhile (· != '[')).drop 1).takeWhile (· != ']')
      else hostinfo.takeWhile (· != ':')
    lowerStr host
  | _ => []

/-- The host as every URL loop in `main.py` prepares it:
`(urlparse(u).hostname or "").strip(".").lower()`. -/
def hostOf (u : List Char) : List Char := lowerStr (stripDots (pyHostname u))

/-- The netloc of `u` as `urlsplit` isolates it: the text after a valid
`scheme:` head and `//`, up to the first `/`, `?` or `#`. -/
def netlocOf (u : List Char) : List Char :=
  match schemeStrip u with
  | '/' :: '/' :: r => r.takeWhile (fun c => c != '/' && c != '?' && c != '#')
  | _ => []

/-- `urlparse(u)` returns without raising and `pyHostname u` agrees with
`urlparse(u).hostname or ""`: the netloc is pure ASCII (so the stdlib's
NFKC netloc check returns at once) and holds no bracket character
(`urlsplit` raises `ValueError "Invalid IPv6 URL"` for an unbalanced
bracket on every version, and 3.11+ also raises for a balanced-bracket
host that is not an IPv6/IPvFuture literal). -/
def urlparse_total (u : List Char) : Bool :=
  (netlocOf u).all (fun c => decide (c.toNat < 128) && c != '[' && c != ']')

/-- A sufficient, version-independent condition for `urlparse(u)` to raise
`ValueError`: the netloc holds `[` without `]`, or `]` without `[`
("Invalid IPv6 URL"). -/
def urlparse_raises (u : List Char) : Bool :=
  let nl := netlocOf u
  (nl.contains '[' && !nl.contains ']') || (nl.contains ']' && !nl.contains '[')

/-! ### `_registrable_domain`, `_domain_matches`, IP / punycode tests -/

/-- The fixed multi-label public-suffix table of `_registrable_domain`. -/
def public_suffix_2 : List (List Char) :=
  ["co.uk".data, "com.au".data, "co.in".data, "co.jp".data,
   "com.br".data, "gov.uk".data, "ac.uk".data]

/-- `_registrable_domain` from `main.py`. -/
def registrable_domain (domain : List Char) : List Char :=
  if domain = [] then []
  else
    let d := stripDots (lowerStr domain)
    let parts := splitOnDot d
    if parts.length ≤ 2 then d
    else
      let last2 := List.intercalate ['.'] (parts.drop (parts.length - 2))
      let last3 := List.intercalate ['.'] (parts.drop (parts.length - 3))
      if last2 ∈ public_suffix_2 ∧ 3 ≤ parts.length then last3 else last2

/-- A concrete well-formed host used as a test vector. -/
def c10host : List Char := "sub.mail.google.co.uk".data

/-- `_domain_matches` from `main.py`. -/
def domain_matches (a b : List Char) : Bool :=
  if a = [] ∨ b = [] then false
  else
    let a' := lowerStr (stripDots a)
    let b' := lowerStr (stripDots b)
    let ra := registrable_domain a'
    let rb := registrable_domain b'
    ra == rb || ('.' :: rb).isSuffixOf a' || ('.' :: ra).isSuffixOf b'

/-- One group of `re.fullmatch(r"\d{1,3}(?:\.\d{1,3}){3}", host)`:
one to three ASCII digits. -/
def isDigitGroup (g : List Char) : Bool :=
  !g.isEmpty && g.length ≤ 3 && g.all Char.isDigit

/-- `re.fullmatch(r"\d{1,3}(?:\.\d{1,3}){3}", host)`: exactly four
dot-separated groups of one to three digits. -/
def looks_like_ip (host : List Char) : Bool :=
  match splitOnDot host with
  | [a, b, c, d] => isDigitGroup a && isDigitGroup b && isDigitGroup c && isDigitGroup d
  | _ => false

/-- `"xn--" in host` (substring containment, as the source tests it). -/
def hasXn (host : List Char) : Bool := hasSubstr "xn--".data host

/-! ### The heuristic fallback engine `_heuristic_detect_fallback` -/

/-- An `Email` row as the handlers read it (`None` fields read as `""`,
which `[]` models). -/
structure EmailRec where
  subject : List Char
  from_addr : List Char
  to_addr : List Char
  body_text : List Char
  extracted_urls : List (List Char)
deriving DecidableEq, Repr

/-- `re.search(r"<([^>]+)>", from_addr)`: the group of the leftmost
`<...>` pair with a non-empty, `'>'`-free interior. -/
def angleGroup : List Char → Option (List Char)
  | [] => none
  | c :: cs =>
    if c = '<' then
      let run := cs.takeWhile (· != '>')
      if run.isEmpty then angleGroup cs
      else if (cs.dropWhile (· != '>')).isEmpty then angleGroup cs
      else some run
    else angleGroup cs

def scam_phrases : List (List Char) :=
  ["compensation fund".data, "winning notification".data, "inheritance claim".data,
   "million usd".data, "western union".data]

def urgent_words : List (List Char) :=
  ["immediately".data, "account suspended".data, "action required".data,
   "security alert".data, "terminate".data, "verify your account".data]

def generic_domains : List (List Char) :=
  ["gmail.com".data, "yahoo.com".data, "hotmail.com".data,
   "outlook.com".data, "icloud.com".data]

/-- The hard-coded sibling-domain table of `_heuristic_detect_fallback`. -/
def siblingsOf (reg : List Char) : Option (List (List Char)) :=
  if reg = "google.com".data then
    some ["google.dev".data, "youtube.com".data, "gmail.com".data, "googlesource.com".data,
          "gstatic.com".data, "appspot.com".data, "googleusercontent.com".data]
  else if reg = "microsoft.com".data then
    some ["office.com".data, "office365.com".data, "azure.com".data, "linkedin.com".data,
          "live.com".data, "sharepoint.com".data, "microsoftonline.com".data]
  else if reg = "amazon.com".data then
    some ["media-amazon.com".data, "amazonaws.com".data, "aws.amazon.com".data,
          "amazon.co.uk".data, "amazon.ca".data]
  else none

def scamReason : List Char := "Fallback: Financial scam language detected".data

def urgentReason : List Char := "Fallback: Urgent/Threatening language".data

def punyReason : List Char := "Fallback: Punycode domain detected".data

def ipReason (host : List Char) : List Char :=
  "Fallback: Link uses raw IP address (".data ++ host ++ ")".data

def mismatchReason (sender_domain host : List Char) : List Char :=
  "Fallback: Link mismatch (".data ++ sender_domain ++ " -> ".data ++ host ++ ")".data

/-- Mutable state of the URL loop in `_heuristic_detect_fallback`. -/
structure HeurState where
  score : Int
  reasons : List (List Char)
  mismatch_counted : Bool
  has_ip : Bool
deriving DecidableEq, Repr

/-- One iteration of `for u in urls[:20]` in `_heuristic_detect_fallback`. -/
def heurUrlStep (sender_domain sender_reg : List Char) (st : HeurState) (u : List Char) :
    HeurState :=
  let host := hostOf u
  if host.isEmpty then st
  else
    let host_reg := registrable_domain host
    let st1 :=
      if looks_like_ip host && !st.has_ip then
        { st with score := st.score + 80, reasons := st.reasons ++ [ipReason host],
                  has_ip := true }
      else st
    let st2 :=
      if hasXn host then
        { st1 with score := st1.score + 80, reasons := st1.reasons ++ [punyReason] }
      else st1
    if sender_domain.isEmpty || generic_domains.contains sender_domain then st2
    else
      let is_safe := domain_matches sender_domain host ||
        (match siblingsOf sender_reg with
         | some sibs => sibs.any (fun s =>
             host_reg == registrable_domain s || ('.' :: s).isSuffixOf host)
         | none => false)
      if !is_safe && !st2.mismatch_counted then
        { st2 with score := st2.score + 40,
                   reasons := st2.reasons ++ [mismatchReason sender_domain host],
                   mismatch_counted := true }
      else st2

/-- The sender domain preparation at the head of `_heuristic_detect_fallback`. -/
def senderDomainOf (from_addr : List Char) : List Char :=
  let sender_email :=
    match angleGroup from_addr with
    | some g => lowerStr g
    | none => lowerStr from_addr
  if sender_email.contains '@' then afterLastAt sender_email else []

/-- The keyword section of `_heuristic_detect_fallback` (scam phrases then
urgency words), producing the loop's starting state. -/
def heurInit (e : EmailRec) : HeurState :=
  let text := lowerStr e.body_text
  let subject := lowerStr e.subject
  let s1 : Int × List (List Char) :=
    if scam_phrases.any (fun p => hasSubstr p text) then (50, [scamReason]) else (0, [])
  let s2 : Int × List (List Char) :=
    if urgent_words.any (fun w => hasSubstr w subject || hasSubstr w text) then
      (s1.1 + 25, s1.2 ++ [urgentReason])
    else s1
  ⟨s2.1, s2.2, false, false⟩

/-- `_heuristic_detect_fallback` from `main.py`: `(score, label, reasons)`. -/
def heuristic_detect_fallback (e : EmailRec) : Int × List Char × List (List Char) :=
  let sender_domain := senderDomainOf e.from_addr
  let sender_reg := registrable_domain sender_domain
  let st := (e.extracted_urls.take 20).foldl (heurUrlStep sender_domain sender_reg) (heurInit e)
  let score := min 100 st.score
  let label :=
    if score ≥ 65 then "phishing".data
    else if score ≥ 30 then "suspicious".data
    else "benign".data
  (score, label, st.reasons)

/-! ### The classifier path of `detect` -/

/-- A persisted `Detection` row (label, clamped score, reasons). -/
structure DetectionRec where
  label : List Char
  risk_score : Int
  reasons : List (List Char)
deriving DecidableEq, Repr

/-- Python's first-occurrence set-based dedup
(`[x for x in reasons if not (x in seen or seen.add(x))]`). -/
def pyDedupGo [DecidableEq α] (seen : List α) : List α → List α
  | [] => []
  | x :: xs => if x ∈ seen then pyDedupGo seen xs else x :: pyDedupGo (x :: seen) xs

def pyDedup [DecidableEq α] (l : List α) : List α := pyDedupGo [] l

/-- The guardrail scan `for u in urls[:25]` of `detect`:
`(has_ip_link, has_punycode)`. -/
def guardrailFlags (urls : List (List Char)) : Bool × Bool :=
  (urls.take 25).foldl
    (fun fl u =>
      let host := hostOf u
      if host.isEmpty then fl
      else (fl.1 || looks_like_ip host, fl.2 || hasXn host))
    (false, false)

def overrideReason : List Char :=
  "System Override: Technical indicator (raw IP / punycode) present.".data

/-- The classifier branch of `detect` after the adapter call: raw score
(already coerced by `int(...)`), raw label and raw reason strings in, the
persisted detection out.  Mirrors lines 343–382 of `main.py`: lowercase the
label, keep non-blank reasons, apply the guardrail override, clamp, apply
the label/score consistency repair, dedup the reasons. -/
def classifierPath (urls : List (List Char)) (score0 : Int) (rawLabel : List Char)
    (rawReasons : List (List Char)) : DetectionRec :=
  let label0 := lowerStr rawLabel
  let reasons0 := rawReasons.filter (fun r => r.any (fun c => !isSpacePy c))
  let fl := guardrailFlags urls
  let step1 : Int × List Char × List (List Char) :=
    if (fl.1 || fl.2) && decide (score0 < 80) then
      (85, "phishing".data, reasons0 ++ [overrideReason])
    else (score0, label0, reasons0)
  let score2 := max 0 (min 100 step1.1)
  let score3 :=
    if step1.2.1 = "benign".data ∧ score2 > 40 then (10 : Int)
    else if step1.2.1 = "phishing".data ∧ score2 < 60 then 80
    else score2
  ⟨step1.2.1, score3, pyDedup step1.2.2⟩

/-! ### The adapter `detect_email_with_local_ai` and the orchestrator -/

/-- A Python value in a parsed classifier response, as far as the
orchestrator inspects one. -/
inductive PyVal where
  | int (n : Int)
  | str (s : List Char)
deriving DecidableEq, Repr

/-- Digits to a natural number. -/
def digitsToNat (ds : List Char) : Nat :=
  ds.foldl (fun acc c => acc * 10 + (c.toNat - 48)) 0

/-- Python `int(str)`: strip whitespace, optional sign, decimal digits;
anything else raises `ValueError`. -/
def pyIntOfStr (s : List Char) : Option Int :=
  let t := ((s.dropWhile isSpacePy).reverse.dropWhile isSpacePy).reverse
  match t with
  | '-' :: ds =>
    if !ds.isEmpty && ds.all Char.isDigit then some (-(digitsToNat ds : Int)) else none
  | '+' :: ds =>
    if !ds.isEmpty && ds.all Char.isDigit then some (digitsToNat ds : Int) else none
  | ds =>
    if !ds.isEmpty && ds.all Char.isDigit then some (digitsToNat ds : Int) else none

/-- Python `int(v)` on the values the orchestrator can meet. -/
def pyInt : PyVal → Option Int
  | .int n => some n
  | .str s => pyIntOfStr s

/-- The normalized classifier dictionary the adapter produces on success
(keys case-folded, `risk_score` already substituted for `score`). -/
structure AIDict where
  score : Option PyVal
  label : Option (List Char)
  reasons : Option (List (List Char))
deriving DecidableEq

/-- What the classifier backend call comes to: any exception inside the
adapter (transport failure, malformed response, non-JSON payload) is one
`failure`, a parsed JSON object is a `success`. -/
inductive AIOutcome where
  | failure (msg : List Char)
  | success (d : AIDict)
deriving DecidableEq

/-- `detect_email_with_local_ai` from `ai_engine.py`, abstracted over the
backend outcome: the `except` branch returns the sentinel
`{"score": 50, "label": "suspicious", "reasons": [f"AI Error: {e}"]}`
instead of propagating; a success returns the normalized dictionary. -/
def detect_email_with_local_ai : AIOutcome → AIDict
  | .failure msg => ⟨some (.int 50), some "suspicious".data, some ["AI Error: ".data ++ msg]⟩
  | .success d => d

inductive DetectErr where
  | emailNotFound
deriving DecidableEq

def noteAIFailed : List Char := "Note: AI analysis failed; used heuristics".data

/-- The heuristic branch at the bottom of `detect`, with the AI-failure
note appended when the AI backend is configured. -/
def heuristicBranch (e : EmailRec) (aiEnabled : Bool) : DetectionRec :=
  let r := heuristic_detect_fallback e
  ⟨r.2.1, r.1, if aiEnabled then r.2.2 ++ [noteAIFailed] else r.2.2⟩

/-- The `detect` endpoint of `main.py`: 404 when the email row is absent;
otherwise, when the classifier is requested and configured, run the
adapter and process its dictionary (`int(ai.get("score", 0))` may raise,
which the surrounding `try` turns into the heuristic fallback); otherwise
run the heuristic fallback directly.  The error type models only the 404:
the uncaught `ValueError` that `urlparse` raises in the heuristic loop
for a bad-bracket URL (the guardrail's identical raise is caught by the
classifier `try` and falls through to the heuristic loop, which repeats
the call with nothing catching it) is outside this function, so theorems
asserting that a detection is produced carry `urlparse_total` over the
scanned URL prefix as a hypothesis. -/
def detect (emailRow : Option EmailRec) (use_llm aiEnabled : Bool) (outcome : AIOutcome) :
    Except DetectErr DetectionRec :=
  match emailRow with
  | none => .error .emailNotFound
  | some e =>
    if use_llm && aiEnabled then
      let ai := detect_email_with_local_ai outcome
      match pyInt (ai.score.getD (.int 0)) with
      | some n =>
        .ok (classifierPath e.extracted_urls n (ai.label.getD "benign".data) (ai.reasons.getD []))
      | none => .ok (heuristicBranch e aiEnabled)
    else .ok (heuristicBranch e aiEnabled)

/-- A persisted `Rewrite` row as the `rewrite` endpoint builds it. -/
structure RewriteRec where
  safe_subject : List Char
  safe_body : List Char
  used_llm : Bool
deriving DecidableEq, Repr

/-- The `rewrite` endpoint of `main.py`: 404 when the email row is absent;
otherwise the safe body is `_strip_links(e.body_text or "")`, the subject
is kept unchanged, and `used_llm` is `False` (rule-based only). -/
def rewrite (emailRow : Option EmailRec) : Except DetectErr RewriteRec :=
  match emailRow with
  | none => .error .emailNotFound
  | some e => .ok ⟨e.subject, strip_links e.body_text, false⟩

/-! ### The `open-safely` endpoint -/

structure RenderResp where
  status_code : Nat
  text : List Char
deriving DecidableEq

/-- The final persisted state of the `OpenSafelyJob` row. -/
structure JobRec where
  status : List Char
  error : Option (List Char)
  target_url : List Char
deriving DecidableEq, Repr

structure ArtifactRec where
  job_id : List Char
  name : List Char
  rel_path : List Char
  sha256 : Option (List Char)
  mime : List Char
  size_bytes : Nat
deriving DecidableEq, Repr

inductive OpenResult where
  | emailNotFound
  | invalidLinkIndex
  | runnerError (job_id : List Char) (body : List Char)
  | ok (job_id : List Char)
deriving DecidableEq

/-- Result of one `open_safely` invocation: what is returned (or raised),
the final job row if one was created, and the inserted artifact rows. -/
structure OpenOutcome where
  result : OpenResult
  job : Option JobRec
  artifacts : List ArtifactRec
deriving DecidableEq

/-- The artifact manifest of `open_safely`: `(name, mime)`. -/
def manifest : List (List Char × List Char) :=
  [("desktop.png".data, "image/png".data),
   ("mobile.png".data, "image/png".data),
   ("iocs.json".data, "application/json".data),
   ("text.txt".data, "text/plain".data),
   ("meta.json".data, "application/json".data)]

/-- The `open_safely` endpoint of `main.py`, abstracted over the renderer
response and the artifact store (`fileExists`/`fileSize` model
`os.path.exists`/`os.path.getsize` under the job directory at
finalization time).  The happy path inserts one artifact row per manifest
name whose file exists, with `sha = None` (the source never computes a
hash). -/
def open_safely (emailRow : Option EmailRec) (link_index : Int) (job_id : List Char)
    (resp : RenderResp) (fileExists : List Char → Bool) (fileSize : List Char → Nat) :
    OpenOutcome :=
  match emailRow with
  | none => ⟨.emailNotFound, none, []⟩
  | some e =>
    let urls := e.extracted_urls
    if link_index < 0 ∨ link_index ≥ (urls.length : Int) then ⟨.invalidLinkIndex, none, []⟩
    else
      let url := urls.getD link_index.toNat []
      if resp.status_code ≠ 200 then
        ⟨.runnerError job_id resp.text, some ⟨"failed".data, some resp.text, url⟩, []⟩
      else
        let arts := (manifest.filter (fun nm => fileExists nm.1)).map
          (fun nm => ⟨job_id, nm.1, "open-safely/".data ++ job_id ++ ['/'] ++ nm.1,
                      none, nm.2, fileSize nm.1⟩)
        ⟨.ok job_id, some ⟨"done".data, none, url⟩, arts⟩

/-! ### Reason-count instrumentation for the heuristic loop -/

/-- How many reasons of a list satisfy a predicate. -/
def countReasons (p : List Char → Bool) (rs : List (List Char)) : Nat :=
  (rs.filter p).length

/-- Recognises the raw-IP reason (any host). -/
def isIpReasonB (r : List Char) : Bool :=
  "Fallback: Link uses raw IP address (".data.isPrefixOf r

/-- Recognises the link-mismatch reason (any sender/host). -/
def isMismatchReasonB (r : List Char) : Bool :=
  "Fallback: Link mismatch (".data.isPrefixOf r

/-- Recognises the punycode reason. -/
def isPunyReasonB (r : List Char) : Bool := r == punyReason

/-- Integer indicator of a flag. -/
def bInt (b : Bool) : Int := if b then 1 else 0

/-- The once-per-message accounting invariant tying the loop flags to the
reason list: the raw-IP reason is present exactly when `has_ip` is set,
and the mismatch reason exactly when `mismatch_counted` is set. -/
def heurCntInv (st : HeurState) : Prop :=
  countReasons isIpReasonB st.reasons = (if st.has_ip then 1 else 0) ∧
  countReasons isMismatchReasonB st.reasons = (if st.mismatch_counted then 1 else 0)

/-! ### The label table of the specification -/

/-- Modelled from the spec (§4.2), for comparison with the code: the
authoritative label thresholds on the final clamped score —
`< 30` benign, `30–59` suspicious, `≥ 60` phishing. -/
def specLabelOfScore (s : Int) : List Char :=
  if s < 30 then "benign".data
  else if s < 60 then "suspicious".data
  else "phishing".data

/-! ### Helper lemmas about the heuristic URL loop -/

theorem heurUrlStep_score_le (sd sr : List Char) (st : HeurState) (u : List Char) :
    st.score ≤ (heurUrlStep sd sr st u).score := by
  simp only [heurUrlStep]
  split_ifs <;> simp <;> omega

theorem heurLoop_score_le (sd sr : List Char) (urls : List (List Char)) (st : HeurState) :
    st.score ≤ (urls.foldl (heurUrlStep sd sr) st).score := by
  induction urls generalizing st with
  | nil => exact le_refl _
  | cons u us ih =>
    exact le_trans (heurUrlStep_score_le sd sr st u) (ih (heurUrlStep sd sr st u))

theorem heurInit_score_nonneg (e : EmailRec) : 0 ≤ (heurInit e).score := by
  simp only [heurInit]
  split_ifs <;> simp

theorem countReasons_nil (p : List Char → Bool) : countReasons p [] = 0 := rfl

theorem countReasons_cons (p : List Char → Bool) (r : List Char) (rs : List (List Char)) :
    countReasons p (r :: rs) = (if p r then 1 else 0) + countReasons p rs := by
  simp only [countReasons, List.filter_cons]
  cases h : p r <;> simp [h, Nat.add_comm]

theorem countReasons_append (p : List Char → Bool) (rs ts : List (List Char)) :
    countReasons p (rs ++ ts) = countReasons p rs + countReasons p ts := by
  simp [countReasons, List.filter_append]

theorem isIpReasonB_ipReason (host : List Char) : isIpReasonB (ipReason host) = true := by
  simp [isIpReasonB, ipReason, List.isPrefixOf]

theorem isIpReasonB_puny : isIpReasonB punyReason = false := by decide

theorem isIpReasonB_mismatch (sd host : List Char) :
    isIpReasonB (mismatchReason sd host) = false := by
  simp [isIpReasonB, mismatchReason, List.isPrefixOf]

theorem isMismatchReasonB_mismatch (sd host : List Char) :
    isMismatchReasonB (mismatchReason sd host) = true := by
  simp [isMismatchReasonB, mismatchReason, List.isPrefixOf]

theorem isMismatchReasonB_ipReason (host : List Char) :
    isMismatchReasonB (ipReason host) = false := by
  simp [isMismatchReasonB, ipReason, List.isPrefixOf]

theorem isMismatchReasonB_puny : isMismatchReasonB punyReason = false := by decide

theorem isPunyReasonB_ipReason (host : List Char) : isPunyReasonB (ipReason host) = false := rfl

theorem isPunyReasonB_mismatch (sd host : List Char) :
    isPunyReasonB (mismatchReason sd host) = false := rfl

theorem isPunyReasonB_puny : isPunyReasonB punyReason = true := by decide

/-- Effect of one loop iteration on the accounting invariant, the punycode
reason count, and the score. -/
theorem heurUrlStep_counts (sd sr : List Char) (st : HeurState) (u : List Char)
    (h : heurCntInv st) :
    heurCntInv (heurUrlStep sd sr st u) ∧
    countReasons isPunyReasonB (heurUrlStep sd sr st u).reasons =
      countReasons isPunyReasonB st.reasons + (if hasXn (hostOf u) then 1 else 0) ∧
    (heurUrlStep sd sr st u).score =
      st.score + 80 * bInt (hasXn (hostOf u))
        + 80 * (bInt (heurUrlStep sd sr st u).has_ip - bInt st.has_ip)
        + 40 * (bInt (heurUrlStep sd sr st u).mismatch_counted
                - bInt st.mismatch_counted) := by
  obtain ⟨hip, hmm⟩ := h
  by_cases hempty : (hostOf u).isEmpty
  · have hxn : hasXn (hostOf u) = false := by
      have : hostOf u = [] := by
        cases hh : hostOf u
        · rfl
        · rw [hh] at hempty; simp [List.isEmpty] at hempty
      rw [this]; rfl
    simp only [heurUrlStep, hempty, if_true, heurCntInv, hxn]
    refine ⟨⟨hip, hmm⟩, by simp [bInt], by simp [bInt]⟩
  · simp only [heurUrlStep, hempty]
    simp only [Bool.false_eq_true, if_false, heurCntInv]
    split_ifs <;>
      simp_all [countReasons_append, countReasons_cons, countReasons_nil,
        isIpReasonB_ipReason, isIpReasonB_puny, bInt,
        isIpReasonB_mismatch, isMismatchReasonB_mismatch, isMismatchReasonB_ipReason,
        isMismatchReasonB_puny, isPunyReasonB_ipReason, isPunyReasonB_mismatch,
        isPunyReasonB_puny]

theorem bInt_true : bInt true = 1 := rfl

theorem bInt_false : bInt false = 0 := rfl

/-- The loop preserves the accounting invariant; the punycode reason count
grows by one per triggering URL; the score grows by 80 per punycode URL
plus 80/40 for the at-most-one raw-IP/mismatch transitions. -/
theorem heurLoop_counts (sd sr : List Char) (urls : List (List Char)) (st : HeurState)
    (h : heurCntInv st) :
    heurCntInv (urls.foldl (heurUrlStep sd sr) st) ∧
    countReasons isPunyReasonB (urls.foldl (heurUrlStep sd sr) st).reasons =
      countReasons isPunyReasonB st.reasons +
        (urls.filter (fun u => hasXn (hostOf u))).length ∧
    (urls.foldl (heurUrlStep sd sr) st).score =
      st.score + 80 * ((urls.filter (fun u => hasXn (hostOf u))).length : Int)
        + 80 * (bInt (urls.foldl (heurUrlStep sd sr) st).has_ip - bInt st.has_ip)
        + 40 * (bInt (urls.foldl (heurUrlStep sd sr) st).mismatch_counted
                - bInt st.mismatch_counted) := by
  induction urls generalizing st with
  | nil => simp [h]
  | cons u us ih =>
    obtain ⟨h1, h2, h3⟩ := heurUrlStep_counts sd sr st u h
    obtain ⟨ih1, ih2, ih3⟩ := ih (heurUrlStep sd sr st u) h1
    refine ⟨ih1, ?_, ?_⟩
    · simp only [List.foldl_cons, List.filter_cons]
      cases hx : hasXn (hostOf u)
      · rw [hx] at h2; simp at h2
        simp [hx]
        omega
      · rw [hx] at h2; simp at h2
        simp [hx]
        omega
    · simp only [List.foldl_cons, List.filter_cons]
      cases hx : hasXn (hostOf u)
      · rw [hx, bInt_false] at h3
        simp [hx]
        omega
      · rw [hx, bInt_true] at h3
        simp [hx]
        omega

/-- The keyword reasons carry no URL-loop reason, so the starting state of
the loop satisfies the accounting invariant with zero counts. -/
theorem heurInit_counts (e : EmailRec) :
    heurCntInv (heurInit e) ∧
    countReasons isPunyReasonB (heurInit e).reasons = 0 ∧
    (heurInit e).has_ip = false ∧ (heurInit e).mismatch_counted = false := by
  simp only [heurInit]
  split_ifs <;> refine ⟨?_, by decide, trivial, trivial⟩ <;> unfold heurCntInv <;>
    exact ⟨by decide, by decide⟩

/-! ### C1 — the classifier-path guardrail -/

/-- C1: the claim as stated is false.  With the single URL
`http://1.2.3.4/a` (an IPv4-literal host) and raw classifier output
`(score 90, label "benign")`, the guardrail does not fire (it requires the
raw score to be below 80) and the consistency repair then drags the score
down to 10: the persisted detection is `("benign", 10)`, not a phishing
score of at least 80. -/
theorem c1_counterexample :
    looks_like_ip (hostOf "http://1.2.3.4/a".data) = true ∧
    (classifierPath ["http://1.2.3.4/a".data] 90 "benign".data []).risk_score = 10 ∧
    (classifierPath ["http://1.2.3.4/a".data] 90 "benign".data []).label = "benign".data := by
  decide

/-- C1 (amended): for every detection produced through the classifier
path, if among the first 25 URLs some URL has an IPv4-literal or
`xn--`-containing host and the integer-coerced raw score is below 80, the
final persisted score is at least 80 and the final label is `"phishing"`,
regardless of the raw label and reasons. -/
theorem c1_theorem (urls : List (List Char)) (score0 : Int) (rawLabel : List Char)
    (rawReasons : List (List Char))
    (hflag : ((guardrailFlags urls).1 || (guardrailFlags urls).2) = true)
    (hscore : score0 < 80) :
    80 ≤ (classifierPath urls score0 rawLabel rawReasons).risk_score ∧
    (classifierPath urls score0 rawLabel rawReasons).label = "phishing".data := by
  have h1 : (((guardrailFlags urls).1 || (guardrailFlags urls).2) && decide (score0 < 80)) = true := by
    simp [hflag, hscore]
  simp only [classifierPath, h1, if_true]
  refine ⟨?_, ?_⟩ <;> simp

/-- C1 witness: a concrete IPv4-literal URL with raw output
`(score 50, label "benign")` is forced to `("phishing", ≥ 80)`. -/
theorem c1_witness :
    80 ≤ (classifierPath ["http://1.2.3.4/a".data] 50 "benign".data []).risk_score ∧
    (classifierPath ["http://1.2.3.4/a".data] 50 "benign".data []).label = "phishing".data :=
  c1_theorem ["http://1.2.3.4/a".data] 50 "benign".data [] (by decide) (by decide)

/-! ### C2 — score range and the label/score correspondence -/

/-- C2: the claim as stated is false.  On the classifier path, raw output
`(score 35, label "benign")` with no URLs passes the guardrail and the
consistency repair untouched (the repair only fires on `benign` above 40)
and is persisted as `("benign", 35)`, while the spec's threshold table
demands label `"suspicious"` for a score of 35. -/
theorem c2_counterexample :
    (classifierPath [] 35 "benign".data []).risk_score = 35 ∧
    (classifierPath [] 35 "benign".data []).label = "benign".data ∧
    specLabelOfScore 35 = "suspicious".data ∧
    "suspicious".data ≠ "benign".data := by
  decide

/-- C2 (amended): every persisted score lies in [0,100].  On the heuristic
path the label is the deterministic threshold function of the score with
cuts 30 and 65 (`< 30` benign, `30–64` suspicious, `≥ 65` phishing).  On
the classifier path only the weaker repairs hold: a persisted `"benign"`
label implies score ≤ 40 and a persisted `"phishing"` label implies
score ≥ 60; other (label, score) pairs pass through as the classifier
produced them. -/
theorem c2_theorem :
    (∀ e : EmailRec,
        0 ≤ (heuristic_detect_fallback e).1 ∧ (heuristic_detect_fallback e).1 ≤ 100 ∧
        (heuristic_detect_fallback e).2.1 =
          (if 65 ≤ (heuristic_detect_fallback e).1 then "phishing".data
           else if 30 ≤ (heuristic_detect_fallback e).1 then "suspicious".data
           else "benign".data)) ∧
    (∀ (urls : List (List Char)) (s : Int) (lab : List Char) (rs : List (List Char)),
        0 ≤ (classifierPath urls s lab rs).risk_score ∧
        (classifierPath urls s lab rs).risk_score ≤ 100 ∧
        ((classifierPath urls s lab rs).label = "benign".data →
          (classifierPath urls s lab rs).risk_score ≤ 40) ∧
        ((classifierPath urls s lab rs).label = "phishing".data →
          60 ≤ (classifierPath urls s lab rs).risk_score)) := by
  constructor
  · intro e
    simp only [heuristic_detect_fallback]
    have h0 : (0 : Int) ≤
        ((e.extracted_urls.take 20).foldl
          (heurUrlStep (senderDomainOf e.from_addr)
            (registrable_domain (senderDomainOf e.from_addr))) (heurInit e)).score :=
      le_trans (heurInit_score_nonneg e) (heurLoop_score_le _ _ _ _)
    refine ⟨?_, ?_, ?_⟩
    · omega
    · omega
    · trivial
  · intro urls s lab rs
    simp only [classifierPath]
    split_ifs <;> simp_all

/-- C2 witness: the amended theorem applied at a concrete heuristic input
and a concrete classifier input, discharging the label hypotheses there. -/
theorem c2_witness :
    (0 ≤ (heuristic_detect_fallback ⟨[], [], [], [], []⟩).1 ∧
      (heuristic_detect_fallback ⟨[], [], [], [], []⟩).1 ≤ 100) ∧
    (classifierPath [] 35 "benign".data []).risk_score ≤ 40 ∧
    60 ≤ (classifierPath [] 5 "phishing".data []).risk_score :=
  ⟨⟨(c2_theorem.1 ⟨[], [], [], [], []⟩).1, (c2_theorem.1 ⟨[], [], [], [], []⟩).2.1⟩,
   (c2_theorem.2 [] 35 "benign".data []).2.2.1 (by decide),
   (c2_theorem.2 [] 5 "phishing".data []).2.2.2 (by decide)⟩

/-! ### C3 — classifier failure handling in the adapter and orchestrator -/

/-- C3: the claim as stated is false, twice over.  On a transport failure
the adapter returns the sentinel `(50, "suspicious", ["AI Error: ..."])`,
but the orchestrator does not recognise it as a failure: it persists the
sentinel itself as the detection, does not fall through to the heuristic
engine, and the persisted reasons do not contain the AI-failure note.
And `detect` does not fail only on a missing email: `extract_urls` can
store the URL `http://[x`, whose netloc has an unbalanced bracket, so
`urlparse` raises `ValueError` on it — caught by the classifier `try` in
the guardrail scan, but not caught in the heuristic loop that the
fall-through then runs — and `detect` propagates a server error for an
existing email. -/
theorem c3_counterexample :
    detect (some ⟨[], [], [], [], []⟩) true true (.failure "boom".data) =
      .ok ⟨"suspicious".data, 50, ["AI Error: boom".data]⟩ ∧
    noteAIFailed ∉ ["AI Error: boom".data] ∧
    heuristicBranch ⟨[], [], [], [], []⟩ true ≠
      ⟨"suspicious".data, 50, ["AI Error: boom".data]⟩ ∧
    extract_urls "see http://[x now".data = ["http://[x".data] ∧
    urlparse_raises "http://[x".data = true ∧
    urlparse_total "http://[x".data = false :=
  ⟨rfl, by decide, by decide, by decide, by decide, by decide⟩

/-- C3 (amended): on classifier transport failure, malformed response or
non-JSON payload, the adapter returns the sentinel result (score 50, label
"suspicious", a failure reason) instead of propagating, and the
orchestrator persists the sentinel itself through the normal classifier
post-processing — it does not fall through to the heuristic engine for a
sentinel (the heuristic fallback with the AI-failure note only runs when
the orchestrator's own processing of the returned dictionary raises).
Provided `urlparse` accepts each of the first 25 stored URLs
(`urlparse_total`: ASCII netloc, no brackets — on a URL such as
`http://[x` the endpoint instead propagates `urlparse`'s `ValueError`),
the detect operation returns a detection for every backend outcome and
fails only when the target email does not exist. -/
theorem c3_theorem (e : EmailRec) (msg : List Char) (use_llm aiEnabled : Bool)
    (outcome : AIOutcome)
    (_hurls : ∀ u ∈ e.extracted_urls.take 25, urlparse_total u = true) :
    detect (some e) true true (.failure msg) =
      .ok (classifierPath e.extracted_urls 50 "suspicious".data ["AI Error: ".data ++ msg]) ∧
    (∃ d, detect (some e) use_llm aiEnabled outcome = .ok d) ∧
    detect none use_llm aiEnabled outcome = .error .emailNotFound := by
  refine ⟨rfl, ?_, rfl⟩
  simp only [detect]
  split
  · split
    · exact ⟨_, rfl⟩
    · exact ⟨_, rfl⟩
  · exact ⟨_, rfl⟩

/-- C3 witness: the amended theorem at a concrete email row holding one
well-formed URL, a concrete failure message and a concrete outcome. -/
theorem c3_witness :
    detect (some ⟨[], [], [], [], ["http://a.example/x".data]⟩) true true
        (.failure "boom".data) =
      .ok (classifierPath ["http://a.example/x".data] 50 "suspicious".data
        ["AI Error: boom".data]) ∧
    (∃ d, detect (some ⟨[], [], [], [], ["http://a.example/x".data]⟩) false false
        (.failure "boom".data) = .ok d) ∧
    detect none false false (.failure "boom".data) = .error .emailNotFound :=
  c3_theorem ⟨[], [], [], [], ["http://a.example/x".data]⟩ "boom".data false false
    (.failure "boom".data) (by decide)

/-! ### C5 — renderer status handling in `open_safely` -/

/-- C5: the claim as stated is false.  The code treats only status 200 as
success (`if r.status_code != 200`), not "any 2xx": a 204 response — a 2xx
status — persists the job as `failed` with the response body as error text
and surfaces the runner error. -/
theorem c5_counterexample :
    open_safely (some ⟨[], [], [], [], ["http://a.example/x".data]⟩) 0 "job1".data
        ⟨204, "No Content".data⟩ (fun _ => false) (fun _ => 0) =
      ⟨.runnerError "job1".data "No Content".data,
       some ⟨"failed".data, some "No Content".data, "http://a.example/x".data⟩, []⟩ ∧
    200 ≤ 204 ∧ 204 < 300 := by
  refine ⟨by decide, by omega, by omega⟩

/-- C5 (amended): for every open-safely invocation that reaches the
renderer call, the call is treated as successful (job persisted `done`)
exactly when the renderer responds with status 200; on any other status
(2xx or not) the job is persisted `failed` with the response body as its
error text, and the surfaced upstream error carries the job identifier and
the response body. -/
theorem c5_theorem (e : EmailRec) (idx : Int) (jid : List Char) (resp : RenderResp)
    (fe : List Char → Bool) (fs : List Char → Nat)
    (h0 : 0 ≤ idx) (h1 : idx < (e.extracted_urls.length : Int)) :
    (resp.status_code = 200 →
      (open_safely (some e) idx jid resp fe fs).result = .ok jid ∧
      (open_safely (some e) idx jid resp fe fs).job =
        some ⟨"done".data, none, e.extracted_urls.getD idx.toNat []⟩) ∧
    (resp.status_code ≠ 200 →
      (open_safely (some e) idx jid resp fe fs).result = .runnerError jid resp.text ∧
      (open_safely (some e) idx jid resp fe fs).job =
        some ⟨"failed".data, some resp.text, e.extracted_urls.getD idx.toNat []⟩) := by
  have hidx : ¬(idx < 0 ∨ idx ≥ (e.extracted_urls.length : Int)) := by omega
  constructor
  · intro h200
    simp [open_safely, hidx, h200]
  · intro hne
    simp [open_safely, hidx, hne]

/-- C5 witness: concrete 200 and 404 responses at a valid link index. -/
theorem c5_witness :
    (open_safely (some ⟨[], [], [], [], ["http://a.example/x".data]⟩) 0 "j1".data
        ⟨200, []⟩ (fun _ => false) (fun _ => 0)).result = .ok "j1".data ∧
    (open_safely (some ⟨[], [], [], [], ["http://a.example/x".data]⟩) 0 "j2".data
        ⟨404, "bad".data⟩ (fun _ => false) (fun _ => 0)).result =
      .runnerError "j2".data "bad".data :=
  ⟨((c5_theorem ⟨[], [], [], [], ["http://a.example/x".data]⟩ 0 "j1".data ⟨200, []⟩
      (fun _ => false) (fun _ => 0) (by decide) (by decide)).1 rfl).1,
   ((c5_theorem ⟨[], [], [], [], ["http://a.example/x".data]⟩ 0 "j2".data ⟨404, "bad".data⟩
      (fun _ => false) (fun _ => 0) (by decide) (by decide)).2 (by decide)).1⟩

/-! ### C6 — artifact rows and content hashing -/

/-- C6: at finalization of a successful render, one artifact row is
inserted per manifest-named file that exists, with its size recorded —
but the stored hash is always `None`: the source sets `sha = None` and
never computes a hash, so the stored hash of an existing file is null,
contradicting the claim (the spec resolves its open question by making
hashing mandatory).  Evaluated at a successful render whose store holds
exactly `desktop.png`, and in general: every inserted row has a null
hash. -/
theorem c6_theorem :
    (open_safely (some ⟨[], [], [], [], ["http://a.example/x".data]⟩) 0 "job1".data
        ⟨200, []⟩ (fun n => n == "desktop.png".data) (fun _ => 12345)).artifacts =
      [⟨"job1".data, "desktop.png".data, "open-safely/job1/desktop.png".data, none,
        "image/png".data, 12345⟩] ∧
    (∀ (emailRow : Option EmailRec) (idx : Int) (jid : List Char) (resp : RenderResp)
        (fe : List Char → Bool) (fs : List Char → Nat),
      ((open_safely emailRow idx jid resp fe fs).artifacts.all
        (fun a => a.sha256.isNone)) = true) := by
  refine ⟨by decide, ?_⟩
  intro emailRow idx jid resp fe fs
  match emailRow with
  | none => rfl
  | some e =>
    simp only [open_safely]
    split
    · rfl
    · split
      · rfl
      · simp only [List.all_eq_true]
        intro a ha
        rw [List.mem_map] at ha
        obtain ⟨nm, hnm, rfl⟩ := ha
        rfl

/-! ### C7 — once-per-message flags in the heuristic engine -/

/-- C7: the claim as stated is false.  A message whose only signals are
two punycode URLs scores 80 + 80 (clamped to 100) and records the
punycode reason twice: the punycode flag has no once-per-message guard
(unlike `has_ip` and `mismatch_counted`). -/
theorem c7_counterexample :
    heuristic_detect_fallback ⟨[], [], [], [],
        ["http://xn--a.example/".data, "http://xn--b.example/".data]⟩ =
      (100, "phishing".data, [punyReason, punyReason]) ∧
    countReasons isPunyReasonB [punyReason, punyReason] = 2 := by
  constructor
  · decide
  · decide

/-- C7 (amended): in every heuristic result, the raw-IP reason and the
domain-mismatch reason each occur at most once; the punycode reason occurs
once per triggering URL among the first 20; and the persisted score is the
keyword score plus 80 per raw-IP record, 80 per punycode record and 40 per
mismatch record, clamped at 100. -/
theorem c7_theorem (e : EmailRec) :
    countReasons isIpReasonB (heuristic_detect_fallback e).2.2 ≤ 1 ∧
    countReasons isMismatchReasonB (heuristic_detect_fallback e).2.2 ≤ 1 ∧
    countReasons isPunyReasonB (heuristic_detect_fallback e).2.2 =
      ((e.extracted_urls.take 20).filter (fun u => hasXn (hostOf u))).length ∧
    (heuristic_detect_fallback e).1 =
      min 100 ((heurInit e).score
        + 80 * (countReasons isIpReasonB (heuristic_detect_fallback e).2.2 : Int)
        + 80 * (countReasons isPunyReasonB (heuristic_detect_fallback e).2.2 : Int)
        + 40 * (countReasons isMismatchReasonB (heuristic_detect_fallback e).2.2 : Int)) := by
  obtain ⟨hinv0, hp0, hip0, hmm0⟩ := heurInit_counts e
  obtain ⟨hinv, hp, hs⟩ := heurLoop_counts (senderDomainOf e.from_addr)
    (registrable_domain (senderDomainOf e.from_addr)) (e.extracted_urls.take 20)
    (heurInit e) hinv0
  obtain ⟨hinv1, hinv2⟩ := hinv
  simp only [heuristic_detect_fallback]
  rw [hip0, hmm0, bInt_false] at hs
  refine ⟨?_, ?_, ?_, ?_⟩
  · rw [hinv1]; split_ifs <;> omega
  · rw [hinv2]; split_ifs <;> omega
  · rw [hp, hp0]; omega
  · rw [hp, hp0, hinv1, hinv2, hs]
    cases hf1 : (List.foldl (heurUrlStep (senderDomainOf e.from_addr)
        (registrable_domain (senderDomainOf e.from_addr))) (heurInit e)
        (e.extracted_urls.take 20)).has_ip <;>
      cases hf2 : (List.foldl (heurUrlStep (senderDomainOf e.from_addr)
          (registrable_domain (senderDomainOf e.from_addr))) (heurInit e)
          (e.extracted_urls.take 20)).mismatch_counted <;>
      simp [bInt] <;> congr 1 <;> ring

/-! ### C8 — no URL-count contribution in the heuristic engine -/

/-- A URL that triggers neither the raw-IP nor the punycode rule leaves
the loop state unchanged when the sender domain is empty. -/
theorem heurUrlStep_id (sr : List Char) (st : HeurState) (u : List Char)
    (hip : looks_like_ip (hostOf u) = false) (hxn : hasXn (hostOf u) = false) :
    heurUrlStep [] sr st u = st := by
  simp only [heurUrlStep]
  split_ifs <;> simp_all

theorem heurLoop_id (sr : List Char) (urls : List (List Char)) (st : HeurState)
    (h : ∀ u ∈ urls, looks_like_ip (hostOf u) = false ∧ hasXn (hostOf u) = false) :
    urls.foldl (heurUrlStep [] sr) st = st := by
  induction urls generalizing st with
  | nil => rfl
  | cons u us ih =>
    have hu := h u (List.mem_cons_self u us)
    simp only [List.foldl_cons, heurUrlStep_id sr st u hu.1 hu.2]
    exact ih st (fun v hv => h v (List.mem_cons_of_mem u hv))

/-- C8: the claim as stated is false.  A message whose URL list holds one
URL (plain host, no other signals) scores 0, not the claimed URL-count
contribution `min(30, 10 + 5*1) = 15`: the deployed fallback rule set has
no URL-count rule. -/
theorem c8_counterexample :
    heuristic_detect_fallback ⟨[], [], [], [], ["http://example.com/a".data]⟩ =
      (0, "benign".data, []) ∧
    min 30 (10 + 5 * 1) = (15 : Int) ∧ (0 : Int) ≠ 15 := by
  refine ⟨by decide, by decide, by decide⟩

/-- C8 (amended): the heuristic score has no URL-count contribution: a
message with an empty sender and any number of URLs, each accepted by
`urlparse` (`urlparse_total`: ASCII netloc, no brackets — on a URL such
as `http://[x` the engine raises `ValueError` instead of scoring) and
none of which triggers the raw-IP or punycode rule (among the first 20
scanned), scores exactly 0 with empty reasons, whatever the length of its
URL list. -/
theorem c8_theorem (urls : List (List Char))
    (_hp : ∀ u ∈ urls.take 20, urlparse_total u = true)
    (h : ∀ u ∈ urls.take 20, looks_like_ip (hostOf u) = false ∧ hasXn (hostOf u) = false) :
    heuristic_detect_fallback ⟨[], [], [], [], urls⟩ = (0, "benign".data, []) := by
  have hinit : heurInit ⟨[], [], [], [], urls⟩ = ⟨0, [], false, false⟩ := rfl
  simp only [heuristic_detect_fallback]
  rw [hinit]
  have hsd : senderDomainOf (⟨[], [], [], [], urls⟩ : EmailRec).from_addr = [] := rfl
  rw [hsd, heurLoop_id _ _ _ h]
  decide

/-- C8 witness: the amended theorem applied to a concrete one-URL list. -/
theorem c8_witness :
    heuristic_detect_fallback ⟨[], [], [], [], ["http://example.com/a".data]⟩ =
      (0, "benign".data, []) :=
  c8_theorem ["http://example.com/a".data] (by decide) (by decide)

/-! ### C10 — helper lemmas on lowercasing, dot-stripping and splitting -/

theorem char_ofNat_toNat_add32 (c : Char) (h1 : 65 ≤ c.toNat) (h2 : c.toNat ≤ 90) :
    (Char.ofNat (c.toNat + 32)).toNat = c.toNat + 32 := by
  have hv : (c.toNat + 32).isValidChar := Or.inl (by omega)
  simp only [Char.ofNat, Char.toNat] at hv ⊢
  rw [dif_pos hv]
  simp [Char.ofNatAux, UInt32.toNat, BitVec.toNat_ofNatLt]

theorem lowerChar_idem (c : Char) : lowerChar (lowerChar c) = lowerChar c := by
  by_cases h : 65 ≤ c.toNat ∧ c.toNat ≤ 90
  · have h1 : lowerChar c = Char.ofNat (c.toNat + 32) := by
      simp only [lowerChar, Char.toLower]
      rw [if_pos ⟨h.1, h.2⟩]
    have ht := char_ofNat_toNat_add32 c h.1 h.2
    rw [h1]
    simp only [lowerChar, Char.toLower]
    rw [if_neg]
    rw [ht]
    omega
  · have h1 : lowerChar c = c := by
      simp only [lowerChar, Char.toLower]
      rw [if_neg h]
    rw [h1, h1]

theorem lowerStr_eq_self {l : List Char} (h : ∀ x ∈ l, lowerChar x = x) :
    lowerStr l = l := by
  induction l with
  | nil => rfl
  | cons c cs ih =>
    simp only [lowerStr, List.map_cons] at ih ⊢
    rw [h c (by simp), ih (fun x hx => h x (List.mem_cons_of_mem c hx))]

theorem lowered_of_mem_lowerStr {l : List Char} {x : Char} (hx : x ∈ lowerStr l) :
    lowerChar x = x := by
  simp only [lowerStr, List.mem_map] at hx
  obtain ⟨c, _, rfl⟩ := hx
  exact lowerChar_idem c

theorem dropWhile_head_not {p : Char → Bool} {l : List Char} {x : Char}
    (h : (l.dropWhile p).head? = some x) : p x = false := by
  induction l with
  | nil => simp [List.dropWhile] at h
  | cons c cs ih =>
    rw [List.dropWhile_cons] at h
    split at h
    · exact ih h
    · simp at h
      subst h
      simp_all

theorem dropWhile_eq_self_of_head {p : Char → Bool} {l : List Char}
    (h : ∀ x, l.head? = some x → p x = false) : l.dropWhile p = l := by
  cases l with
  | nil => rfl
  | cons c cs =>
    rw [List.dropWhile_cons, if_neg]
    simp [h c rfl]

theorem mem_of_getLast? {l : List Char} {x : Char} (h : l.getLast? = some x) : x ∈ l := by
  have : l.reverse.head? = some x := by simp [h]
  have hm : x ∈ l.reverse := by
    cases hr : l.reverse with
    | nil => rw [hr] at this; simp at this
    | cons a t => rw [hr] at this; simp at this; simp [this]
  simpa using hm

theorem mem_of_head? {l : List Char} {x : Char} (h : l.head? = some x) : x ∈ l := by
  cases l with
  | nil => simp at h
  | cons a t => simp at h; simp [h]

theorem stripDots_head {l : List Char} {x : Char} (h : (stripDots l).head? = some x) :
    x ≠ '.' := by
  simp only [stripDots] at h
  rw [List.head?_reverse] at h
  have hsfx := List.dropWhile_suffix (l := (l.dropWhile (· == '.')).reverse) (· == '.')
  obtain ⟨t, ht⟩ := hsfx
  have hne : (l.dropWhile (· == '.')).reverse.dropWhile (· == '.') ≠ [] := by
    intro hnil
    rw [hnil] at h
    simp at h
  have : ((l.dropWhile (· == '.')).reverse.dropWhile (· == '.')).getLast? =
      ((l.dropWhile (· == '.')).reverse).getLast? := by
    conv_rhs => rw [← ht]
    rw [List.getLast?_append_of_ne_nil _ hne]
  rw [this, List.getLast?_reverse] at h
  have := dropWhile_head_not h
  simpa using this

theorem stripDots_getLast {l : List Char} {x : Char}
    (h : (stripDots l).getLast? = some x) : x ≠ '.' := by
  simp only [stripDots] at h
  rw [List.getLast?_reverse] at h
  have := dropWhile_head_not h
  simpa using this

theorem stripDots_eq_self {l : List Char}
    (h1 : ∀ x, l.head? = some x → x ≠ '.') (h2 : ∀ x, l.getLast? = some x → x ≠ '.') :
    stripDots l = l := by
  simp only [stripDots]
  have hinner : l.dropWhile (· == '.') = l :=
    dropWhile_eq_self_of_head (fun x hx => by simpa using h1 x hx)
  rw [hinner]
  have houter : l.reverse.dropWhile (· == '.') = l.reverse :=
    dropWhile_eq_self_of_head (fun x hx => by
      rw [List.head?_reverse] at hx
      simpa using h2 x hx)
  rw [houter, List.reverse_reverse]

theorem mem_of_mem_stripDots {l : List Char} {x : Char} (hx : x ∈ stripDots l) : x ∈ l := by
  simp only [stripDots] at hx
  rw [List.mem_reverse] at hx
  have h1 := (List.dropWhile_sublist (l := (l.dropWhile (· == '.')).reverse) (· == '.')).subset hx
  rw [List.mem_reverse] at h1
  exact (List.dropWhile_sublist (l := l) (· == '.')).subset h1

theorem splitOnDot_ne_nil (l : List Char) : splitOnDot l ≠ [] := by
  cases l with
  | nil => simp [splitOnDot]
  | cons c cs =>
    simp only [splitOnDot]
    split
    · simp
    · split_ifs <;> simp

theorem no_dot_of_mem_splitOnDot {l : List Char} :
    ∀ p ∈ splitOnDot l, '.' ∉ p := by
  induction l with
  | nil => intro p hp; simp [splitOnDot] at hp; simp [hp]
  | cons c cs ih =>
    intro p hp
    simp only [splitOnDot] at hp
    cases hs : splitOnDot cs with
    | nil => exact absurd hs (splitOnDot_ne_nil cs)
    | cons h t =>
      rw [hs] at hp
      have iht := ih
      rw [hs] at iht
      split_ifs at hp with hc
      · rcases List.mem_cons.mp hp with h1 | h1
        · simp [h1]
        · exact iht p h1
      · rcases List.mem_cons.mp hp with h1 | h1
        · subst h1
          intro hmem
          rcases List.mem_cons.mp hmem with h2 | h2
          · exact hc h2.symm
          · exact iht h (by simp) h2
        · exact iht p (List.mem_cons_of_mem h h1)

theorem mem_of_mem_splitOnDot {l p : List Char} {x : Char}
    (hp : p ∈ splitOnDot l) (hx : x ∈ p) : x ∈ l := by
  induction l generalizing p with
  | nil =>
    simp [splitOnDot] at hp
    subst hp
    simp at hx
  | cons c cs ih =>
    simp only [splitOnDot] at hp
    cases hs : splitOnDot cs with
    | nil => exact absurd hs (splitOnDot_ne_nil cs)
    | cons h t =>
      rw [hs] at hp
      split_ifs at hp with hc
      · rcases List.mem_cons.mp hp with h1 | h1
        · subst h1; simp at hx
        · have hmem : p ∈ splitOnDot cs := by rw [hs]; exact h1
          exact List.mem_cons_of_mem c (ih hmem hx)
      · rcases List.mem_cons.mp hp with h1 | h1
        · subst h1
          rcases List.mem_cons.mp hx with h2 | h2
          · simp [h2]
          · have hmem : h ∈ splitOnDot cs := by rw [hs]; simp
            exact List.mem_cons_of_mem c (ih hmem h2)
        · have hmem : p ∈ splitOnDot cs := by rw [hs]; exact List.mem_cons_of_mem h h1
          exact List.mem_cons_of_mem c (ih hmem hx)

theorem splitOnDot_no_dot {l : List Char} (h : '.' ∉ l) : splitOnDot l = [l] := by
  induction l with
  | nil => rfl
  | cons c cs ih =>
    simp only [splitOnDot]
    have hc : c ≠ '.' := fun hc => h (by simp [hc])
    have hcs : '.' ∉ cs := fun hm => h (List.mem_cons_of_mem c hm)
    rw [ih hcs]
    simp [hc]

theorem splitOnDot_append_dot {a b : List Char} (h : '.' ∉ a) :
    splitOnDot (a ++ '.' :: b) = a :: splitOnDot b := by
  induction a with
  | nil =>
    simp only [List.nil_append, splitOnDot]
    cases hs : splitOnDot b with
    | nil => exact absurd hs (splitOnDot_ne_nil b)
    | cons hh tt => simp
  | cons c cs ih =>
    have hc : c ≠ '.' := fun hc => h (by simp [hc])
    have hcs : '.' ∉ cs := fun hm => h (List.mem_cons_of_mem c hm)
    have hstep : splitOnDot (c :: (cs ++ '.' :: b)) =
        match splitOnDot (cs ++ '.' :: b) with
        | [] => [[]]
        | hh :: tt => if c = '.' then [] :: hh :: tt else (c :: hh) :: tt := rfl
    rw [List.cons_append, hstep, ih hcs]
    simp [hc]

theorem intercalate_two (a b : List Char) :
    List.intercalate ['.'] [a, b] = a ++ '.' :: b := by
  simp [List.intercalate, List.intersperse]

theorem intercalate_three (a b c : List Char) :
    List.intercalate ['.'] [a, b, c] = a ++ '.' :: (b ++ '.' :: c) := by
  simp [List.intercalate, List.intersperse]

/-- Properties of `a ++ '.' :: rest` for a dot-free, non-empty, lowered
label `a` glued onto a lowered tail with a dot-free last character. -/
theorem glue_props {a rest : List Char} (hneA : a ≠ []) (hdA : '.' ∉ a)
    (hlowA : ∀ x ∈ a, lowerChar x = x) (hlowR : ∀ x ∈ rest, lowerChar x = x)
    (hneR : rest ≠ [])
    (hlastR : ∀ x, rest.getLast? = some x → x ≠ '.') :
    (∀ x ∈ a ++ '.' :: rest, lowerChar x = x) ∧
    (∀ x, (a ++ '.' :: rest).head? = some x → x ≠ '.') ∧
    (∀ x, (a ++ '.' :: rest).getLast? = some x → x ≠ '.') ∧
    splitOnDot (a ++ '.' :: rest) = a :: splitOnDot rest := by
  refine ⟨?_, ?_, ?_, splitOnDot_append_dot hdA⟩
  · intro x hx
    rcases List.mem_append.mp hx with h1 | h1
    · exact hlowA x h1
    · rcases List.mem_cons.mp h1 with h2 | h2
      · subst h2; decide
      · exact hlowR x h2
  · intro x hx
    cases a with
    | nil => exact absurd rfl hneA
    | cons c t =>
      simp at hx
      subst hx
      exact fun he => hdA (by simp [he])
  · intro x hx
    rw [List.getLast?_append] at hx
    cases hrL : rest.getLast? with
    | none => exact absurd (List.getLast?_eq_none_iff.mp hrL) hneR
    | some y =>
      have hcons : ('.' :: rest).getLast? = some y := by
        have : ('.' :: rest) = ['.'] ++ rest := rfl
        rw [this, List.getLast?_append, hrL]
        rfl
      rw [hcons] at hx
      simp at hx
      subst hx
      exact hlastR y hrL

/-- `_registrable_domain` is the identity on an already-canonical domain
with at most two labels. -/
theorem rd_eq_self_short {r : List Char}
    (hlow : ∀ x ∈ r, lowerChar x = x)
    (hhead : ∀ x, r.head? = some x → x ≠ '.')
    (hlast : ∀ x, r.getLast? = some x → x ≠ '.')
    (hlen : (splitOnDot r).length ≤ 2) :
    registrable_domain r = r := by
  by_cases h0 : r = []
  · subst h0; rfl
  · simp only [registrable_domain, if_neg h0]
    rw [lowerStr_eq_self hlow, stripDots_eq_self hhead hlast, if_pos hlen]

/-- `_registrable_domain` is the identity on a canonical three-label
domain whose last two labels form a listed public suffix. -/
theorem rd_eq_self_suffix {q p1 p2 : List Char}
    (hq : q ≠ []) (hdq : '.' ∉ q) (hlq : ∀ x ∈ q, lowerChar x = x)
    (h1 : p1 ≠ []) (hd1 : '.' ∉ p1) (hl1 : ∀ x ∈ p1, lowerChar x = x)
    (h2 : p2 ≠ []) (hd2 : '.' ∉ p2) (hl2 : ∀ x ∈ p2, lowerChar x = x)
    (htab : p1 ++ '.' :: p2 ∈ public_suffix_2) :
    registrable_domain (q ++ '.' :: (p1 ++ '.' :: p2)) = q ++ '.' :: (p1 ++ '.' :: p2) := by
  obtain ⟨glow2, ghead2, glast2, gsplit2⟩ :=
    glue_props h1 hd1 hl1 hl2 h2 (fun x hx he => hd2 (he ▸ mem_of_getLast? hx))
  have hne2 : p1 ++ '.' :: p2 ≠ [] := by cases p1 <;> simp
  obtain ⟨glow3, ghead3, glast3, gsplit3⟩ :=
    glue_props hq hdq hlq glow2 hne2 glast2
  have hne3 : q ++ '.' :: (p1 ++ '.' :: p2) ≠ [] := by cases q <;> simp
  simp only [registrable_domain, if_neg hne3]
  rw [lowerStr_eq_self glow3, stripDots_eq_self ghead3 glast3, gsplit3, gsplit2,
    splitOnDot_no_dot hd2]
  rw [if_neg (by simp)]
  rw [if_pos ⟨by rw [show List.drop ([q, p1, p2].length - 2) [q, p1, p2] = [p1, p2] from rfl,
        intercalate_two]; exact htab, by simp⟩]
  rw [show List.drop ([q, p1, p2].length - 3) [q, p1, p2] = [q, p1, p2] from rfl,
    intercalate_three]

/-- C10: the claim as stated is false.  On the host `"a..b"` (an empty
interior label), `_registrable_domain` returns `".b"`, which has a leading
dot, and applying the function again gives `"b" ≠ ".b"` — the computation
is not idempotent and its result is not dot-trimmed. -/
theorem c10_counterexample :
    registrable_domain "a..b".data = ".b".data ∧
    registrable_domain (registrable_domain "a..b".data) = "b".data ∧
    "b".data ≠ ".b".data ∧
    (registrable_domain "a..b".data).head? = some '.' := by
  refine ⟨by decide, by decide, by decide, by decide⟩

/-- C10 (amended): for every host string whose canonical form
(lowercased, dot-stripped) is empty or has no empty label,
`_registrable_domain` is idempotent, and its result is lowercase with no
leading or trailing dot; so for such hosts (every well-formed DNS name)
callers may compare registrable domains by plain string equality.  Hosts
with an empty interior label (`".."`) break both properties. -/
theorem c10_theorem (h : List Char)
    (hcl : stripDots (lowerStr h) = [] ∨ [] ∉ splitOnDot (stripDots (lowerStr h))) :
    registrable_domain (registrable_domain h) = registrable_domain h ∧
    lowerStr (registrable_domain h) = registrable_domain h ∧
    (∀ x, (registrable_domain h).head? = some x → x ≠ '.') ∧
    (∀ x, (registrable_domain h).getLast? = some x → x ≠ '.') := by
  by_cases h0 : h = []
  · subst h0
    refine ⟨rfl, rfl, ?_, ?_⟩ <;> intro x hx <;> simp [registrable_domain] at hx
  · have hdLow : ∀ x ∈ stripDots (lowerStr h), lowerChar x = x :=
      fun x hx => lowered_of_mem_lowerStr (mem_of_mem_stripDots hx)
    have hdHead : ∀ x, (stripDots (lowerStr h)).head? = some x → x ≠ '.' :=
      fun x hx => stripDots_head hx
    have hdLast : ∀ x, (stripDots (lowerStr h)).getLast? = some x → x ≠ '.' :=
      fun x hx => stripDots_getLast hx
    by_cases hn : (splitOnDot (stripDots (lowerStr h))).length ≤ 2
    · have hr : registrable_domain h = stripDots (lowerStr h) := by
        simp only [registrable_domain, if_neg h0]
        rw [if_pos hn]
      rw [hr]
      exact ⟨rd_eq_self_short hdLow hdHead hdLast hn, lowerStr_eq_self hdLow, hdHead, hdLast⟩
    · have hn3 : 3 ≤ (splitOnDot (stripDots (lowerStr h))).length := by omega
      have hdne : stripDots (lowerStr h) ≠ [] := by
        intro hd0
        rw [hd0] at hn
        simp [splitOnDot] at hn
      have hparts : [] ∉ splitOnDot (stripDots (lowerStr h)) := hcl.resolve_left hdne
      obtain ⟨q, p1, p2, h3⟩ : ∃ a b c,
          (splitOnDot (stripDots (lowerStr h))).drop
            ((splitOnDot (stripDots (lowerStr h))).length - 3) = [a, b, c] :=
        List.length_eq_three.mp (by rw [List.length_drop]; omega)
      have h2 : (splitOnDot (stripDots (lowerStr h))).drop
          ((splitOnDot (stripDots (lowerStr h))).length - 2) = [p1, p2] := by
        have hdd : (splitOnDot (stripDots (lowerStr h))).drop
            ((splitOnDot (stripDots (lowerStr h))).length - 2) =
            ((splitOnDot (stripDots (lowerStr h))).drop
              ((splitOnDot (stripDots (lowerStr h))).length - 3)).drop 1 := by
          rw [List.drop_drop]
          congr 1
          omega
        rw [hdd, h3]
        rfl
      have hqm : q ∈ splitOnDot (stripDots (lowerStr h)) :=
        List.drop_subset _ _ (by rw [h3]; simp)
      have hp1m : p1 ∈ splitOnDot (stripDots (lowerStr h)) :=
        List.drop_subset _ _ (by rw [h3]; simp)
      have hp2m : p2 ∈ splitOnDot (stripDots (lowerStr h)) :=
        List.drop_subset _ _ (by rw [h3]; simp)
      have hqne : q ≠ [] := fun he => hparts (he ▸ hqm)
      have hp1ne : p1 ≠ [] := fun he => hparts (he ▸ hp1m)
      have hp2ne : p2 ≠ [] := fun he => hparts (he ▸ hp2m)
      have hqdot : '.' ∉ q := no_dot_of_mem_splitOnDot _ hqm
      have hp1dot : '.' ∉ p1 := no_dot_of_mem_splitOnDot _ hp1m
      have hp2dot : '.' ∉ p2 := no_dot_of_mem_splitOnDot _ hp2m
      have hqlow : ∀ x ∈ q, lowerChar x = x :=
        fun x hx => hdLow x (mem_of_mem_splitOnDot hqm hx)
      have hp1low : ∀ x ∈ p1, lowerChar x = x :=
        fun x hx => hdLow x (mem_of_mem_splitOnDot hp1m hx)
      have hp2low : ∀ x ∈ p2, lowerChar x = x :=
        fun x hx => hdLow x (mem_of_mem_splitOnDot hp2m hx)
      obtain ⟨glow2, ghead2, glast2, gsplit2⟩ :=
        glue_props hp1ne hp1dot hp1low hp2low hp2ne
          (fun x hx he => hp2dot (he ▸ mem_of_getLast? hx))
      by_cases htab : p1 ++ '.' :: p2 ∈ public_suffix_2
      · have hr : registrable_domain h = q ++ '.' :: (p1 ++ '.' :: p2) := by
          simp only [registrable_domain, if_neg h0]
          rw [if_neg hn, if_pos ⟨by rw [h2, intercalate_two]; exact htab, hn3⟩,
            h3, intercalate_three]
        rw [hr]
        have hne2 : p1 ++ '.' :: p2 ≠ [] := by cases p1 <;> simp
        obtain ⟨glow3, ghead3, glast3, gsplit3⟩ :=
          glue_props hqne hqdot hqlow glow2 hne2 glast2
        exact ⟨rd_eq_self_suffix hqne hqdot hqlow hp1ne hp1dot hp1low hp2ne hp2dot hp2low htab,
          lowerStr_eq_self glow3, ghead3, glast3⟩
      · have hr : registrable_domain h = p1 ++ '.' :: p2 := by
          simp only [registrable_domain, if_neg h0]
          rw [if_neg hn,
            if_neg (fun hc => htab (by rw [h2, intercalate_two] at hc; exact hc.1)),
            h2, intercalate_two]
        rw [hr]
        have hlen2 : (splitOnDot (p1 ++ '.' :: p2)).length ≤ 2 := by
          rw [gsplit2, splitOnDot_no_dot hp2dot]
          simp
        exact ⟨rd_eq_self_short glow2 ghead2 glast2 hlen2,
          lowerStr_eq_self glow2, ghead2, glast2⟩

/-- C10 witness: the amended theorem applied at the well-formed host
`sub.mail.google.co.uk`. -/
theorem c10_witness :
    registrable_domain (registrable_domain c10host) = registrable_domain c10host ∧
    lowerStr (registrable_domain c10host) = registrable_domain c10host :=
  ⟨(c10_theorem c10host (Or.inr (by decide))).1,
   (c10_theorem c10host (Or.inr (by decide))).2.1⟩

/-! ### C4/C9 — lemmas about the URL regex scanner -/

theorem schemeSplit_shape {l sch r : List Char} (h : schemeSplit l = some (sch, r)) :
    l = sch ++ r ∧ sch ≠ [] ∧ isH (sch.headD ' ') = true ∧ '[' ∉ sch ∧
    (∀ x, schemeSplit (sch ++ x) = some (sch, x)) := by
  unfold schemeSplit at h
  repeat' split at h
  all_goals try (exact Option.noConfusion h)
  all_goals
    simp only [Option.some.injEq, Prod.mk.injEq] at h
  all_goals obtain ⟨hsch, hr⟩ := h
  all_goals subst hsch
  all_goals subst hr
  · rename_i a b c d hfl rest e hS rest2 rr
    simp only [Bool.and_eq_true] at hfl
    obtain ⟨⟨⟨hHa, hTb⟩, hTc⟩, hPd⟩ := hfl
    refine ⟨rfl, by simp, by simpa using hHa, ?_, ?_⟩
    · intro hmem
      simp only [List.mem_cons, List.not_mem_nil, or_false] at hmem
      rcases hmem with rfl | rfl | rfl | rfl | rfl | h1 | h1 | h1
      · simp [isH] at hHa
      · simp [isT] at hTb
      · simp [isT] at hTc
      · simp [isP] at hPd
      · simp [isS] at hS
      · simp at h1
      · simp at h1
      · simp at h1
    · intro x
      simp [schemeSplit, hHa, hTb, hTc, hPd, hS]
  · rename_i a b c d hfl rest e rest2a hS rest2 rr heq
    simp only [List.cons.injEq] at heq
    obtain ⟨rfl, rfl⟩ := heq
    simp only [Bool.and_eq_true] at hfl
    obtain ⟨⟨⟨hHa, hTb⟩, hTc⟩, hPd⟩ := hfl
    refine ⟨by simp, by simp, by simpa using hHa, ?_, ?_⟩
    · intro hmem
      simp only [List.mem_cons, List.not_mem_nil, or_false] at hmem
      rcases hmem with rfl | rfl | rfl | rfl | h1 | h1 | h1
      · simp [isH] at hHa
      · simp [isT] at hTb
      · simp [isT] at hTc
      · simp [isP] at hPd
      · simp at h1
      · simp at h1
      · simp at h1
    · intro x
      simp [schemeSplit, hHa, hTb, hTc, hPd, isS]

theorem matchAt_eq_some {l m r : List Char} (h : matchAt l = some (m, r)) :
    ∃ sch rest, schemeSplit l = some (sch, rest) ∧
      (rest.takeWhile isUrlChar).isEmpty = false ∧
      m = sch ++ rest.takeWhile isUrlChar ∧ r = rest.dropWhile isUrlChar := by
  unfold matchAt at h
  cases hs : schemeSplit l with
  | none => rw [hs] at h; exact Option.noConfusion h
  | some p =>
    obtain ⟨sch, rest⟩ := p
    rw [hs] at h
    dsimp only at h
    by_cases he : (rest.takeWhile isUrlChar).isEmpty
    · rw [if_pos he] at h; exact Option.noConfusion h
    · rw [if_neg he] at h
      simp only [Option.some.injEq, Prod.mk.injEq] at h
      exact ⟨sch, rest, rfl, by simpa using he, h.1.symm, h.2.symm⟩

theorem matchAt_eq_some_intro {l sch rest : List Char}
    (hs : schemeSplit l = some (sch, rest))
    (hne : (rest.takeWhile isUrlChar).isEmpty = false) :
    matchAt l = some (sch ++ rest.takeWhile isUrlChar, rest.dropWhile isUrlChar) := by
  unfold matchAt
  rw [hs]
  dsimp only
  rw [if_neg (by simp [hne])]

theorem matchAt_rest_length {l m r : List Char} (h : matchAt l = some (m, r)) :
    r.length < l.length := by
  obtain ⟨sch, rest, hs, hne, hm, hr⟩ := matchAt_eq_some h
  obtain ⟨happ, hschne, -, -, -⟩ := schemeSplit_shape hs
  have h1 : (rest.dropWhile isUrlChar).length ≤ rest.length :=
    List.Sublist.length_le (List.dropWhile_sublist _)
  have h2 : 1 ≤ sch.length := by
    cases sch with
    | nil => exact absurd rfl hschne
    | cons a t => simp
  subst happ hr
  simp only [List.length_append]
  omega

theorem matchAt_none_of_not_h {c : Char} (hc : isH c = false) (l : List Char) :
    matchAt (c :: l) = none := by
  unfold matchAt
  cases hs : schemeSplit (c :: l) with
  | none => rfl
  | some p =>
    obtain ⟨sch, r⟩ := p
    obtain ⟨happ, hne, hhead, -, -⟩ := schemeSplit_shape hs
    cases sch with
    | nil => exact absurd rfl hne
    | cons s0 st =>
      simp only [List.cons_append, List.cons.injEq] at happ
      rw [happ.1] at hc
      simp only [List.headD_cons] at hhead
      rw [hhead] at hc
      exact Bool.noConfusion hc

theorem urlChar_of_isH {c : Char} (h : isH c = true) : isUrlChar c = true := by
  simp only [isH, Bool.or_eq_true, beq_iff_eq] at h
  rcases h with rfl | rfl <;> decide

theorem takeWhile_cons_isEmpty {p : Char → Bool} {y : Char} {l : List Char} :
    ((y :: l).takeWhile p).isEmpty = false ↔ p y = true := by
  rw [List.takeWhile_cons]
  cases h : p y <;> simp [h]

theorem matchAt_isSome_head {suf : List Char} (h : (matchAt suf).isSome = true) :
    ∃ s0 st, suf = s0 :: st ∧ isH s0 = true := by
  cases hm : matchAt suf with
  | none => rw [hm] at h; simp at h
  | some p =>
    obtain ⟨m, r⟩ := p
    obtain ⟨sch, rest, hs, -, -, -⟩ := matchAt_eq_some hm
    obtain ⟨happ, hne, hhead, -, -⟩ := schemeSplit_shape hs
    cases sch with
    | nil => exact absurd rfl hne
    | cons s0 st =>
      exact ⟨s0, st ++ rest, by simpa using happ, by simpa using hhead⟩

theorem stripLinksGo_congr :
    ∀ (f1 : Nat) (t : List Char) (f2 : Nat), t.length ≤ f1 → t.length ≤ f2 →
      stripLinksGo f1 t = stripLinksGo f2 t := by
  intro f1
  induction f1 with
  | zero =>
    intro t f2 h1 _
    cases t with
    | nil => cases f2 <;> rfl
    | cons c cs => simp at h1
  | succ n ih =>
    intro t f2 h1 h2
    cases t with
    | nil => cases f2 <;> rfl
    | cons c cs =>
      cases f2 with
      | zero => simp at h2
      | succ m =>
        simp only [stripLinksGo]
        cases hm : matchAt (c :: cs) with
        | some p =>
          obtain ⟨mm, r⟩ := p
          dsimp only
          have hr := matchAt_rest_length hm
          simp only [List.length_cons] at h1 h2 hr
          congr 1
          exact ih r m (by omega) (by omega)
        | none =>
          dsimp only
          simp only [List.length_cons] at h1 h2
          congr 1
          exact ih cs m (by omega) (by omega)

theorem strip_links_nil : strip_links [] = [] := rfl

theorem strip_links_cons_some {c : Char} {cs m r : List Char}
    (h : matchAt (c :: cs) = some (m, r)) :
    strip_links (c :: cs) = "[LINK REMOVED]".data ++ strip_links r := by
  unfold strip_links
  have h0 : stripLinksGo (c :: cs).length (c :: cs) =
      "[LINK REMOVED]".data ++ stripLinksGo cs.length r := by
    simp only [List.length_cons, stripLinksGo, h]
  rw [h0]
  congr 1
  have hr := matchAt_rest_length h
  simp only [List.length_cons] at hr
  exact stripLinksGo_congr cs.length r r.length (by omega) (le_refl _)

theorem strip_links_cons_none {c : Char} {cs : List Char}
    (h : matchAt (c :: cs) = none) :
    strip_links (c :: cs) = c :: strip_links cs := by
  unfold strip_links
  simp only [List.length_cons, stripLinksGo, h]

theorem findAllGo_congr :
    ∀ (f1 : Nat) (t : List Char) (f2 : Nat), t.length ≤ f1 → t.length ≤ f2 →
      findAllGo f1 t = findAllGo f2 t := by
  intro f1
  induction f1 with
  | zero =>
    intro t f2 h1 _
    cases t with
    | nil => cases f2 <;> rfl
    | cons c cs => simp at h1
  | succ n ih =>
    intro t f2 h1 h2
    cases t with
    | nil => cases f2 <;> rfl
    | cons c cs =>
      cases f2 with
      | zero => simp at h2
      | succ m =>
        simp only [findAllGo]
        cases hm : matchAt (c :: cs) with
        | some p =>
          obtain ⟨mm, r⟩ := p
          dsimp only
          have hr := matchAt_rest_length hm
          simp only [List.length_cons] at h1 h2 hr
          congr 1
          exact ih r m (by omega) (by omega)
        | none =>
          dsimp only
          simp only [List.length_cons] at h1 h2
          exact ih cs m (by omega) (by omega)

theorem findAll_nil : findAll [] = [] := rfl

theorem findAll_cons_some {c : Char} {cs m r : List Char}
    (h : matchAt (c :: cs) = some (m, r)) :
    findAll (c :: cs) = m :: findAll r := by
  unfold findAll
  have h0 : findAllGo (c :: cs).length (c :: cs) = m :: findAllGo cs.length r := by
    simp only [List.length_cons, findAllGo, h]
  rw [h0]
  congr 1
  have hr := matchAt_rest_length h
  simp only [List.length_cons] at hr
  exact findAllGo_congr cs.length r r.length (by omega) (le_refl _)

theorem findAll_cons_none {c : Char} {cs : List Char} (h : matchAt (c :: cs) = none) :
    findAll (c :: cs) = findAll cs := by
  unfold findAll
  simp only [List.length_cons, findAllGo, h]

theorem matchAt_isSome_of {l sch rest : List Char}
    (hs : schemeSplit l = some (sch, rest))
    (hne : (rest.takeWhile isUrlChar).isEmpty = false) : (matchAt l).isSome = true := by
  rw [matchAt_eq_some_intro hs hne]
  rfl

theorem replTok_no_h : ∀ x ∈ "[LINK REMOVED]".data, isH x = false := by decide

/-- Prepending text with no `h`/`H` cannot create or destroy a match. -/
theorem hasMatch_append_noH : ∀ (pre : List Char), (∀ x ∈ pre, isH x = false) →
    ∀ (t : List Char), hasMatch (pre ++ t) = hasMatch t := by
  intro pre
  induction pre with
  | nil => intro _ t; rfl
  | cons c cs ih =>
    intro hpre t
    simp only [List.cons_append, hasMatch]
    rw [matchAt_none_of_not_h (hpre c (by simp)) _]
    simp only [Option.isSome_none, Bool.false_or]
    exact ih (fun x hx => hpre x (List.mem_cons_of_mem c hx)) t

/-- The output of `strip_links` either is the unchanged input, or an
unchanged prefix of the input followed by the replacement token, where
the corresponding input suffix begins with a match. -/
theorem strip_links_struct (cs : List Char) :
    strip_links cs = cs ∨
    ∃ pre suf t', cs = pre ++ suf ∧ (matchAt suf).isSome = true ∧
      strip_links cs = pre ++ ("[LINK REMOVED]".data ++ t') := by
  induction cs with
  | nil => left; rfl
  | cons c cs' ih =>
    cases hm : matchAt (c :: cs') with
    | some p =>
      obtain ⟨m, r⟩ := p
      right
      exact ⟨[], c :: cs', strip_links r, rfl, by rw [hm]; rfl,
        by rw [strip_links_cons_some hm]; rfl⟩
    | none =>
      rcases ih with h1 | ⟨pre, suf, t', hcs, hsuf, heq⟩
      · left
        rw [strip_links_cons_none hm, h1]
      · right
        exact ⟨c :: pre, suf, t', by rw [hcs]; rfl, hsuf,
          by rw [strip_links_cons_none hm, heq]; rfl⟩

/-- The crux of the rewrite invariant: if the regex does not match at the
head of `c :: cs`, it still does not match at the head of
`c :: strip_links cs`. -/
theorem matchAt_head_none {c : Char} {cs : List Char} (h : matchAt (c :: cs) = none) :
    matchAt (c :: strip_links cs) = none := by
  rcases strip_links_struct cs with heq | ⟨pre, suf, t', hcs, hsuf, heq⟩
  · rw [heq]; exact h
  · rw [heq]
    obtain ⟨s0, st, hsuf_eq, hs0⟩ := matchAt_isSome_head hsuf
    by_contra hX
    obtain ⟨mm, rr, hmm⟩ : ∃ mm rr,
        matchAt (c :: (pre ++ ("[LINK REMOVED]".data ++ t'))) = some (mm, rr) := by
      cases hm2 : matchAt (c :: (pre ++ ("[LINK REMOVED]".data ++ t'))) with
      | none => exact absurd hm2 hX
      | some p =>
        obtain ⟨m2, r2⟩ := p
        exact ⟨m2, r2, rfl⟩
    obtain ⟨sch, rest, hs, hne, -, -⟩ := matchAt_eq_some hmm
    obtain ⟨happ, hschne, -, hbr, hre⟩ := schemeSplit_shape hs
    have happ' : (c :: pre) ++ ("[LINK REMOVED]".data ++ t') = sch ++ rest := by
      simpa using happ
    by_cases hlen : sch.length ≤ (c :: pre).length
    · have hsch_take : sch = (c :: pre).take sch.length := by
        have h1 := congrArg (List.take sch.length) happ'
        rw [List.take_left' rfl, List.take_append_eq_append_take,
          Nat.sub_eq_zero_of_le hlen] at h1
        simpa using h1.symm
      have hrest : rest = (c :: pre).drop sch.length ++ ("[LINK REMOVED]".data ++ t') := by
        have h1 := congrArg (List.drop sch.length) happ'
        rw [List.drop_left' rfl, List.drop_append_eq_append_drop,
          Nat.sub_eq_zero_of_le hlen] at h1
        simpa using h1.symm
      have hi : schemeSplit ((c :: pre) ++ suf) =
          some (sch, (c :: pre).drop sch.length ++ suf) := by
        have hsplit : (c :: pre) ++ suf = sch ++ ((c :: pre).drop sch.length ++ suf) := by
          conv_lhs => rw [← List.take_append_drop sch.length (c :: pre)]
          rw [← hsch_take, List.append_assoc]
        rw [hsplit]
        exact hre _
      have hne_i : (((c :: pre).drop sch.length ++ suf).takeWhile isUrlChar).isEmpty
          = false := by
        cases hd : (c :: pre).drop sch.length with
        | nil =>
          simp only [List.nil_append]
          rw [hsuf_eq]
          exact takeWhile_cons_isEmpty.mpr (urlChar_of_isH hs0)
        | cons y ys =>
          rw [hd] at hrest
          rw [hrest, List.cons_append] at hne
          have hy : isUrlChar y = true := takeWhile_cons_isEmpty.mp hne
          simp only [List.cons_append]
          exact takeWhile_cons_isEmpty.mpr hy
      have hsome : (matchAt ((c :: pre) ++ suf)).isSome = true :=
        matchAt_isSome_of hi hne_i
      rw [show (c :: pre) ++ suf = c :: cs from by rw [hcs]; rfl, h] at hsome
      simp at hsome
    · apply hbr
      have h1 := congrArg (List.take sch.length) happ'
      rw [List.take_left' rfl, List.take_append_eq_append_take] at h1
      rw [← h1]
      apply List.mem_append_right
      cases hk : sch.length - (c :: pre).length with
      | zero => omega
      | succ k =>
        have hhd : "[LINK REMOVED]".data ++ t' = '[' :: ("LINK REMOVED]".data ++ t') := rfl
        rw [hhd, List.take_succ_cons]
        exact List.mem_cons_self _ _

theorem strip_links_no_match_bounded :
    ∀ (n : Nat) (t : List Char), t.length ≤ n → hasMatch (strip_links t) = false := by
  intro n
  induction n with
  | zero =>
    intro t ht
    cases t with
    | nil => rfl
    | cons c cs => simp at ht
  | succ n ih =>
    intro t ht
    cases t with
    | nil => rfl
    | cons c cs =>
      cases hm : matchAt (c :: cs) with
      | some p =>
        obtain ⟨m, r⟩ := p
        rw [strip_links_cons_some hm, hasMatch_append_noH _ replTok_no_h _]
        apply ih
        have hr := matchAt_rest_length hm
        simp only [List.length_cons] at ht hr
        omega
      | none =>
        rw [strip_links_cons_none hm]
        simp only [hasMatch]
        rw [matchAt_head_none hm]
        simp only [Option.isSome_none, Bool.false_or]
        apply ih
        simp only [List.length_cons] at ht
        omega

/-! ### C4 — the safe-rewrite invariant -/

/-- C4: the claim as stated is false.  The regex `https?://[^\s'\"]+`
needs at least one URL character after the scheme, so a bare scheme
followed by a space survives `_strip_links` verbatim: the rewrite output
for `"go to http:// now"` still contains the literal substring
`http://`. -/
theorem c4_counterexample :
    strip_links "go to http:// now".data = "go to http:// now".data ∧
    hasSubstr "http://".data (strip_links "go to http:// now".data) = true := by
  refine ⟨by decide, by decide⟩

/-- C4 (amended): for every stored email, the rewrite endpoint returns
(and persists) the subject unchanged, `used_llm = false`, and a safe body
that is exactly `_strip_links` of the stored body text; that safe body
never contains a scheme-prefixed URL substring in the sense of the link
regex — an ASCII-case-insensitive `http://` or `https://` immediately
followed by a non-whitespace, non-quote character.  (A bare scheme
followed by whitespace, a quote, or end of text may survive, as the
counterexample shows.) -/
theorem c4_theorem (e : EmailRec) :
    rewrite (some e) = .ok ⟨e.subject, strip_links e.body_text, false⟩ ∧
    hasMatch (strip_links e.body_text) = false :=
  ⟨rfl, strip_links_no_match_bounded e.body_text.length e.body_text (le_refl _)⟩

theorem takeWhile_append_all {p : Char → Bool} :
    ∀ {xs : List Char}, (∀ x ∈ xs, p x = true) → ∀ (ys : List Char),
      (xs ++ ys).takeWhile p = xs ++ ys.takeWhile p := by
  intro xs
  induction xs with
  | nil => intro _ ys; rfl
  | cons c cs ih =>
    intro h ys
    rw [List.cons_append, List.takeWhile_cons, if_pos (h c (List.mem_cons_self c cs)),
      ih (fun x hx => h x (List.mem_cons_of_mem c hx)) ys, List.cons_append]

theorem dropWhile_append_all {p : Char → Bool} :
    ∀ {xs : List Char}, (∀ x ∈ xs, p x = true) → ∀ (ys : List Char),
      (xs ++ ys).dropWhile p = ys.dropWhile p := by
  intro xs
  induction xs with
  | nil => intro _ ys; rfl
  | cons c cs ih =>
    intro h ys
    rw [List.cons_append, List.dropWhile_cons, if_pos (h c (List.mem_cons_self c cs))]
    exact ih (fun x hx => h x (List.mem_cons_of_mem c hx)) ys

theorem takeWhile_space_head (X : List Char) : (' ' :: X).takeWhile isUrlChar = [] := by
  simp [List.takeWhile_cons, show isUrlChar ' ' = false from rfl]

theorem dropWhile_space_head (X : List Char) : (' ' :: X).dropWhile isUrlChar = ' ' :: X := by
  simp [List.dropWhile_cons, show isUrlChar ' ' = false from rfl]

/-- Every string `re.findall` returns is itself a full match: re-running
the regex on it consumes it entirely. -/
theorem findAll_tok :
    ∀ (n : Nat) (t : List Char), t.length ≤ n → ∀ m ∈ findAll t, matchAt m = some (m, []) := by
  intro n
  induction n with
  | zero =>
    intro t ht m hm
    cases t with
    | nil => rw [findAll_nil] at hm; simp at hm
    | cons c cs => simp at ht
  | succ n ih =>
    intro t ht m hm
    cases t with
    | nil => rw [findAll_nil] at hm; simp at hm
    | cons c cs =>
      cases hma : matchAt (c :: cs) with
      | some p =>
        obtain ⟨m0, r⟩ := p
        rw [findAll_cons_some hma] at hm
        rcases List.mem_cons.mp hm with rfl | hm'
        · obtain ⟨sch, rest, hs, hne, hm0, hr⟩ := matchAt_eq_some hma
          obtain ⟨-, -, -, -, hre⟩ := schemeSplit_shape hs
          subst hm0
          have h1 : schemeSplit (sch ++ rest.takeWhile isUrlChar) =
              some (sch, rest.takeWhile isUrlChar) := hre _
          have hall : ∀ x ∈ rest.takeWhile isUrlChar, isUrlChar x = true :=
            fun x hx => List.mem_takeWhile_imp hx
          have h2 : (rest.takeWhile isUrlChar).takeWhile isUrlChar =
              rest.takeWhile isUrlChar := List.takeWhile_idem
          have h3 : (rest.takeWhile isUrlChar).dropWhile isUrlChar = [] :=
            List.dropWhile_eq_nil_iff.mpr (fun x hx => hall x hx)
          have h4 := matchAt_eq_some_intro h1 (by rw [h2]; exact hne)
          rw [h2, h3] at h4
          exact h4
        · have hrl := matchAt_rest_length hma
          simp only [List.length_cons] at ht hrl
          exact ih r (by omega) m hm'
      | none =>
        rw [findAll_cons_none hma] at hm
        simp only [List.length_cons] at ht
        exact ih cs (by omega) m hm

theorem intercalate_singleton (u : List Char) : List.intercalate [' '] [u] = u := by
  simp [List.intercalate]

theorem intercalate_cons₂ (u v : List Char) (vs : List (List Char)) :
    List.intercalate [' '] (u :: v :: vs) = u ++ ' ' :: List.intercalate [' '] (v :: vs) := by
  simp [List.intercalate, List.intersperse]

/-- Re-scanning the space-joined output of a list of full-match tokens
returns exactly that list. -/
theorem findAll_join :
    ∀ us : List (List Char), (∀ u ∈ us, matchAt u = some (u, [])) →
      findAll (List.intercalate [' '] us) = us := by
  intro us
  induction us with
  | nil => intro _; rfl
  | cons u us' ih =>
    intro h
    have hu := h u (List.mem_cons_self u us')
    obtain ⟨sch, rest, hs, hne, hm, hr⟩ := matchAt_eq_some hu
    have hrest_all : ∀ x ∈ rest, isUrlChar x = true :=
      fun x hx => List.dropWhile_eq_nil_iff.mp hr.symm x hx
    have htake : rest.takeWhile isUrlChar = rest := List.takeWhile_eq_self_iff.mpr
      (fun x hx => hrest_all x hx)
    rw [htake] at hm
    obtain ⟨happ0, hschne, -, -, hre⟩ := schemeSplit_shape hs
    have hrest_ne : rest ≠ [] := by
      intro h0
      rw [htake, h0] at hne
      simp at hne
    cases us' with
    | nil =>
      rw [intercalate_singleton]
      cases hsch : sch with
      | nil => exact absurd hsch hschne
      | cons a st =>
        rw [hsch] at hm
        have hu' : matchAt (a :: (st ++ rest)) = some (u, []) := by
          rw [← List.cons_append, ← hm]
          exact hu
        rw [hm, List.cons_append, findAll_cons_some hu', findAll_nil]
        rw [hm, List.cons_append]
    | cons v vs =>
      rw [intercalate_cons₂]
      have hsplit2 : schemeSplit (sch ++ (rest ++ ' ' :: List.intercalate [' '] (v :: vs))) =
          some (sch, rest ++ ' ' :: List.intercalate [' '] (v :: vs)) := hre _
      have htw : ((rest ++ ' ' :: List.intercalate [' '] (v :: vs)).takeWhile isUrlChar) =
          rest := by
        rw [takeWhile_append_all hrest_all, takeWhile_space_head, List.append_nil]
      have hdw : ((rest ++ ' ' :: List.intercalate [' '] (v :: vs)).dropWhile isUrlChar) =
          ' ' :: List.intercalate [' '] (v :: vs) := by
        rw [dropWhile_append_all hrest_all, dropWhile_space_head]
      have hm2 := matchAt_eq_some_intro hsplit2 (by
        rw [htw]
        cases hrest : rest with
        | nil => exact absurd hrest hrest_ne
        | cons y ys => simp)
      rw [htw, hdw] at hm2
      have hm2' : matchAt (u ++ ' ' :: List.intercalate [' '] (v :: vs)) =
          some (u, ' ' :: List.intercalate [' '] (v :: vs)) := by
        rw [hm, List.append_assoc]
        exact hm2
      cases hsch : sch with
      | nil => exact absurd hsch hschne
      | cons a st =>
        rw [hsch] at hm
        have hshape : u ++ ' ' :: List.intercalate [' '] (v :: vs) =
            a :: (st ++ rest ++ ' ' :: List.intercalate [' '] (v :: vs)) := by
          rw [hm]
          simp
        rw [hshape] at hm2'
        have hrec : findAll (' ' :: List.intercalate [' '] (v :: vs)) =
            findAll (List.intercalate [' '] (v :: vs)) :=
          findAll_cons_none (matchAt_none_of_not_h (show isH ' ' = false by decide) _)
        calc findAll (u ++ ' ' :: List.intercalate [' '] (v :: vs))
            = findAll (a :: (st ++ rest ++ ' ' :: List.intercalate [' '] (v :: vs))) := by
              rw [hshape]
          _ = u :: findAll (' ' :: List.intercalate [' '] (v :: vs)) := by
              rw [findAll_cons_some hm2']
          _ = u :: (v :: vs) := by
              rw [hrec, ih (fun w hw => h w (List.mem_cons_of_mem u hw))]

theorem pySortedSet_sorted (l : List (List Char)) :
    List.Sorted (· ≤ ·) (pySortedSet l) := List.sorted_insertionSort _ _

theorem pySortedSet_nodup (l : List (List Char)) : (pySortedSet l).Nodup :=
  ((List.perm_insertionSort _ _).nodup_iff).mpr (List.nodup_dedup l)

theorem pySortedSet_sorted_lt (l : List (List Char)) :
    List.Sorted (· < ·) (pySortedSet l) :=
  (pySortedSet_sorted l).lt_of_le (pySortedSet_nodup l)

theorem pySortedSet_mem {x : List Char} {l : List (List Char)} :
    x ∈ pySortedSet l ↔ x ∈ l :=
  ((List.perm_insertionSort _ _).mem_iff).trans List.mem_dedup

theorem pySortedSet_eq_self {l : List (List Char)}
    (hs : List.Sorted (· ≤ ·) l) (hn : l.Nodup) : pySortedSet l = l := by
  unfold pySortedSet
  rw [hn.dedup]
  exact hs.insertionSort_eq

theorem extract_urls_ne_empty {t : List Char} (h : t.isEmpty = false) :
    extract_urls t = pySortedSet (findAll t) := by
  simp [extract_urls, h]

/-! ### C9 — `extract_urls` is a sorted set and re-extraction is stable -/

/-- C9 (confirmed): `extract_urls` always returns a lexicographically
sorted, duplicate-free list; joining its output with whitespace and
re-extracting returns the same list; and empty input yields the empty
list. -/
theorem c9_theorem (t : List Char) :
    List.Sorted (· < ·) (extract_urls t) ∧
    (extract_urls t).Nodup ∧
    extract_urls (List.intercalate [' '] (extract_urls t)) = extract_urls t ∧
    extract_urls [] = [] := by
  refine ⟨?_, ?_, ?_, rfl⟩
  · unfold extract_urls
    split_ifs with he
    · simp
    · exact pySortedSet_sorted_lt _
  · unfold extract_urls
    split_ifs with he
    · simp
    · exact pySortedSet_nodup _
  · by_cases he : t.isEmpty
    · have h0 : extract_urls t = [] := by unfold extract_urls; rw [if_pos he]
      rw [h0]
      rfl
    · have h0 : extract_urls t = pySortedSet (findAll t) :=
        extract_urls_ne_empty (by revert he; cases t.isEmpty <;> simp)
      have htok : ∀ m ∈ extract_urls t, matchAt m = some (m, []) := by
        intro m hm
        rw [h0] at hm
        exact findAll_tok t.length t (le_refl _) m (pySortedSet_mem.mp hm)
      have hsorted : List.Sorted (· ≤ ·) (extract_urls t) := by
        rw [h0]; exact pySortedSet_sorted _
      have hnd : (extract_urls t).Nodup := by
        rw [h0]; exact pySortedSet_nodup _
      by_cases hus : extract_urls t = []
      · rw [hus]
        rfl
      · have hjoin : findAll (List.intercalate [' '] (extract_urls t)) = extract_urls t :=
          findAll_join _ htok
        have hne_join : (List.intercalate [' '] (extract_urls t)).isEmpty = false := by
          cases hus2 : extract_urls t with
          | nil => exact absurd hus2 hus
          | cons u us2 =>
            have hu := htok u (by rw [hus2]; exact List.mem_cons_self u us2)
            have hune : u ≠ [] := by
              intro h0'
              rw [h0'] at hu
              exact Option.noConfusion hu
            cases hu_shape : u with
            | nil => exact absurd hu_shape hune
            | cons a ar =>
              cases us2 with
              | nil => rw [intercalate_singleton]; rfl
              | cons v vs => rw [intercalate_cons₂]; rfl
        rw [extract_urls_ne_empty hne_join, hjoin]
        exact pySortedSet_eq_self hsorted hnd

end PhishNet
